import Mathlib

/-! A shallow embedding of `witsshell.c`, a line-oriented command interpreter.

C strings are modelled as lists of characters (the bytes before the
terminating NUL).  Memory allocation (`malloc`, `calloc`, `realloc`,
`strdup`) is assumed to succeed throughout, so the allocation-failure
branches of the source are not part of the model.
-/

namespace WitsShell

/-- A C string: the characters that precede the terminating NUL. -/
abbrev Str := List Char

/-! ## Line normalizer (`normalize_ops`) -/

/-- The test `c == '>' || c == '&'` of `normalize_ops`. -/
def is_op (c : Char) : Bool := c == '>' || c == '&'

/-- The delimiter set `" \t\r\n"` handed to `strsep` by the tokenizers, which is
also the whitespace set trimmed by `execute_normalized_line`. -/
def is_ws (c : Char) : Bool := c == ' ' || c == '\t' || c == '\r' || c == '\n'

/-- The test `out[j - 1] != ' ' && out[j - 1] != '\t'` guarded by `j > 0`:
`out` holds the `j` characters written so far. -/
def needs_space_before (out : Str) : Bool :=
  match out.getLast? with
  | none => false
  | some p => p != ' ' && p != '\t'

/-- The test on `nx = line[i + 1]` guarded by `i + 1 < n`: `rest` holds
`line[i+1 .. n)`. -/
def needs_space_after (rest : Str) : Bool :=
  match rest with
  | [] => false
  | nx :: _ => nx != ' ' && nx != '\t' && nx != '\n' && nx != '\r'

/-- The `for` loop of `normalize_ops`: the first argument is `line[i .. n)`,
the second the output buffer `out[0 .. j)`. -/
def normalize_loop : Str → Str → Str
  | [], out => out
  | c :: rest, out =>
    if is_op c then
      let out1 := if needs_space_before out then out ++ [' '] else out
      let out2 := out1 ++ [c]
      let out3 := if needs_space_after rest then out2 ++ [' '] else out2
      normalize_loop rest out3
    else
      normalize_loop rest (out ++ [c])

/-- The function `normalize_ops` (allocation assumed to succeed, so the result is
never NULL). -/
def normalize_ops (line : Str) : Str := normalize_loop line []

/-! ## Tokenizing with `strsep` -/

/-- One call `strsep(&s, delims)` on a non-NULL `s`: the token returned and the
new value of `s` (`none` is NULL, when no delimiter was found). -/
def strsep (delim : Char → Bool) : Str → Str × Option Str
  | [] => ([], none)
  | c :: cs =>
    if delim c then ([], some cs)
    else ((c :: (strsep delim cs).1), (strsep delim cs).2)

/-- The tokens returned by the successive calls of
`while ((tok = strsep(&s, delims)) != NULL)`, in order, empty ones included. -/
def strsep_pieces (delim : Char → Bool) : Str → List Str
  | [] => [[]]
  | c :: cs =>
    if delim c then [] :: strsep_pieces delim cs
    else
      match strsep_pieces delim cs with
      | [] => [[c]]
      | t :: ts => (c :: t) :: ts

/-- The body of the token loop of `parse_simple_command`, run over the pieces
`strsep` returns: empty pieces are skipped, and the loop breaks at the first
non-empty piece met when `nt >= cap` (`cap` is `sizeof(toks)/sizeof(toks[0]) - 1`). -/
def collect_toks (cap : Nat) : List Str → List Str → List Str
  | [], toks => toks
  | tok :: rest, toks =>
    if tok = [] then collect_toks cap rest toks
    else if toks.length ≥ cap then toks
    else collect_toks cap rest (toks ++ [tok])

/-- The capacity `sizeof(toks)/sizeof(toks[0]) - 1` of `char *toks[256]`. -/
def TOKS_CAP : Nat := 255

/-- The constant `MAXV` of `execute_segment`. -/
def MAXV : Nat := 128

/-- The token `">"`. -/
def GT : Str := ['>']

/-- The scan `for (i = 0; i < nt; ++i) if (strcmp(toks[i], ">") == 0) ...`:
the arguments are `toks[i .. nt)`, `i` and the current `gt`; the result is
`none` when a second `>` is met (`print_error(); return -1;`), else the final `gt`. -/
def scan_gt : List Str → Int → Int → Option Int
  | [], _, gt => some gt
  | t :: ts, i, gt =>
    if t = GT then
      if gt ≠ -1 then none else scan_gt ts (i + 1) i
    else scan_gt ts (i + 1) gt

/-- The copy loop `for (i = 0; i < bound && argc < maxv - 1; ++i) argv_out[argc++] = toks[i]`:
the arguments are `toks[i .. bound)` and the vector `argv_out[0 .. argc)`. -/
def copy_argv (maxv : Nat) : List Str → List Str → List Str
  | [], argv => argv
  | t :: ts, argv =>
    if argv.length + 1 < maxv then copy_argv maxv ts (argv ++ [t]) else argv

/-- What `parse_simple_command` leaves behind: its return value, the argument
vector `argv_out[0 .. argc)`, `*redir_path` (`none` is NULL), and the number of
`print_error` calls it made. -/
structure ParseResult where
  ret : Int
  argv : List Str
  redir : Option Str
  errors : Nat
deriving DecidableEq, Repr

/-- The syntax-error exit `print_error(); return -1;` (with `*redir_path` still NULL). -/
def ParseResult.syntax_error : ParseResult :=
  { ret := -1, argv := [], redir := none, errors := 1 }

/-- The part of `parse_simple_command` that follows the token loop; `toks` is
`toks[0 .. nt)`. -/
def parse_tokens (toks : List Str) (maxv : Nat) : ParseResult :=
  let nt : Int := toks.length
  if nt = 0 then { ret := 0, argv := [], redir := none, errors := 0 }
  else
    match scan_gt toks 0 (-1) with
    | none => ParseResult.syntax_error
    | some gt =>
      if gt = -1 then
        let argv := copy_argv maxv toks []
        { ret := argv.length, argv := argv, redir := none, errors := 0 }
      else if gt = 0 then ParseResult.syntax_error
      else if gt = nt - 1 then ParseResult.syntax_error
      else if gt + 2 ≠ nt then ParseResult.syntax_error
      else
        let argv := copy_argv maxv (toks.take gt.toNat) []
        { ret := argv.length, argv := argv, redir := toks.get? (gt.toNat + 1), errors := 0 }

/-- The tokens `parse_simple_command` stores in `toks[0 .. nt)`. -/
def examined_tokens (cmdline : Str) : List Str :=
  collect_toks TOKS_CAP (strsep_pieces is_ws cmdline) []

/-- The function `parse_simple_command`. -/
def parse_simple_command (cmdline : Str) (maxv : Nat) : ParseResult :=
  parse_tokens (examined_tokens cmdline) maxv

/-- The whitespace-separated tokens of a segment: the non-empty pieces between
whitespace characters. -/
def tokens (seg : Str) : List Str :=
  (strsep_pieces is_ws seg).filter (fun t => !t.isEmpty)

/-! ## Search-list resolver -/

/-- The function `join_dir_cmd`: `dir`, then `'/'`, then `cmd`. -/
def join_dir_cmd (dir cmd : Str) : Str := dir ++ ['/'] ++ cmd

/-- The candidate loop of `resolve_command_path` over `pathv[i .. pathc)`;
`x_ok p` is `access(p, X_OK) == 0`. -/
def resolve_loop (x_ok : Str → Bool) (argv0 : Str) : List Str → Option Str
  | [] => none
  | d :: ds =>
    if x_ok (join_dir_cmd d argv0) then some (join_dir_cmd d argv0)
    else resolve_loop x_ok argv0 ds

/-- The function `resolve_command_path` (`none` is NULL); `pathv` is the global
search list and `x_ok p` is `access(p, X_OK) == 0`. -/
def resolve_command_path (x_ok : Str → Bool) (pathv : List Str) (argv0 : Str) : Option Str :=
  if argv0 = [] then none
  else if '/' ∈ argv0 then
    if x_ok argv0 then some argv0 else none
  else if pathv = [] then none
  else resolve_loop x_ok argv0 pathv

/-! ## Controller state and the operating system -/

/-- What the controller process does that is visible outside it, in program
order. `segment` marks a call of `execute_segment` made by
`execute_normalized_line`; `spawn` is a `fork` that succeeded (the child then runs
`exec_external resolved argv redir`). -/
inductive Event where
  | error
  | segment (seg : Str)
  | chdir (dir : Str) (ok : Bool)
  | spawn (pid : Nat) (resolved : Str) (argv : List Str) (redir : Option Str)
  | fork_failed
  | wait (pid : Nat)
deriving DecidableEq, Repr

/-- The system calls the controller depends on.
`access_x cwd p` is `access(p, X_OK) == 0` in working directory `cwd`;
`chdir cwd d` is the working directory after a successful `chdir(d)`, `none` when
it fails; `fork k` is the outcome of the `k`-th call of `fork` as seen by the
parent: `none` for a negative result, `some p` for the child pid `p + 1`. -/
structure Env where
  access_x : Str → Str → Bool
  chdir : Str → Str → Option Str
  fork : Nat → Option Nat

/-- The controller's mutable state: the search list (`pathv`, `pathc`), the
working directory, the number of `fork` calls made, and the events so far. -/
structure Shell where
  pathv : List Str
  cwd : Str
  forks : Nat
  trace : List Event
deriving DecidableEq, Repr

/-- The function `print_error` called by the controller. -/
def print_error (st : Shell) : Shell := { st with trace := st.trace ++ [Event.error] }

/-- The function `set_path`: the old list is freed and replaced by copies of `dirs`. -/
def set_path (st : Shell) (dirs : List Str) : Shell := { st with pathv := dirs }

/-- The function `init_default_path`. -/
def init_default_path (st : Shell) : Shell := set_path st [['/', 'b', 'i', 'n']]

/-- What `execute_segment` leaves behind: its return value, `*spawned_pid`,
`*want_exit` and the controller state. -/
structure SegResult where
  ret : Int
  spawned_pid : Nat
  want_exit : Bool
  st : Shell
deriving DecidableEq, Repr

/-- The name of the `exit` built-in. -/
def EXIT : Str := ['e', 'x', 'i', 't']
/-- The name of the `cd` built-in. -/
def CD : Str := ['c', 'd']
/-- The name of the `path` built-in. -/
def PATH : Str := ['p', 'a', 't', 'h']

/-- Adds the `print_error` calls made inside `parse_simple_command` to the trace. -/
def report_errors : Nat → Shell → Shell
  | 0, st => st
  | n + 1, st => report_errors n (print_error st)

/-- The function `execute_segment`, as run by the controller (the parent side of
`fork`). -/
def execute_segment (env : Env) (st : Shell) (segment : Str) : SegResult :=
  let p := parse_simple_command segment MAXV
  let st := report_errors p.errors st
  if p.ret < 0 then { ret := -1, spawned_pid := 0, want_exit := false, st := st }
  else if p.ret = 0 then { ret := 0, spawned_pid := 0, want_exit := false, st := st }
  else
    match p.argv with
    | [] => { ret := 0, spawned_pid := 0, want_exit := false, st := st }
    | argv0 :: args =>
      if argv0 = EXIT then
        if p.redir ≠ none ∨ p.ret ≠ 1 then
          { ret := 0, spawned_pid := 0, want_exit := false, st := print_error st }
        else { ret := 0, spawned_pid := 0, want_exit := true, st := st }
      else if argv0 = CD then
        if p.redir ≠ none ∨ p.ret ≠ 2 then
          { ret := 0, spawned_pid := 0, want_exit := false, st := print_error st }
        else
          match args with
          | [] => { ret := 0, spawned_pid := 0, want_exit := false, st := st }
          | dir :: _ =>
            match env.chdir st.cwd dir with
            | some cwd =>
              { ret := 0, spawned_pid := 0, want_exit := false,
                st := { st with cwd := cwd, trace := st.trace ++ [Event.chdir dir true] } }
            | none =>
              { ret := 0, spawned_pid := 0, want_exit := false,
                st := print_error { st with trace := st.trace ++ [Event.chdir dir false] } }
      else if argv0 = PATH then
        if p.redir ≠ none then
          { ret := 0, spawned_pid := 0, want_exit := false, st := print_error st }
        else { ret := 0, spawned_pid := 0, want_exit := false, st := set_path st args }
      else if st.pathv = [] then
        { ret := 0, spawned_pid := 0, want_exit := false, st := print_error st }
      else
        match resolve_command_path (env.access_x st.cwd) st.pathv argv0 with
        | none => { ret := 0, spawned_pid := 0, want_exit := false, st := print_error st }
        | some resolved =>
          match env.fork st.forks with
          | none =>
            { ret := 0, spawned_pid := 0, want_exit := false,
              st := print_error { st with forks := st.forks + 1,
                                          trace := st.trace ++ [Event.fork_failed] } }
          | some pid =>
            { ret := 0, spawned_pid := pid + 1, want_exit := false,
              st := { st with forks := st.forks + 1,
                              trace := st.trace ++ [Event.spawn (pid + 1) resolved p.argv p.redir] } }

/-! ## Line executor -/

/-- The delimiter set `"&"` handed to `strsep` by `execute_normalized_line`. -/
def is_amp (c : Char) : Bool := c == '&'

/-- The loop `while (*seg == ' ' || ...) seg++` of `execute_normalized_line`. -/
def trim_leading : Str → Str
  | [] => []
  | c :: cs => if is_ws c then trim_leading cs else c :: cs

/-- The loop `while (L > 0 && (seg[L - 1] == ' ' || ...)) seg[--L] = 0`: the
trailing whitespace characters are cut off. -/
def trim_trailing (seg : Str) : Str := (trim_leading seg.reverse).reverse

/-- The capacity `sizeof(pids)/sizeof(pids[0])` of `pid_t pids[256]`. -/
def PIDS_CAP : Nat := 256

/-- The locals of `execute_normalized_line` that live across loop iterations:
the controller state, `pids[0 .. np)` and `want_exit`. -/
structure LineState where
  st : Shell
  pids : List Nat
  want_exit : Bool
deriving DecidableEq, Repr

/-- The body of the segment loop for a non-empty trimmed segment: the call of
`execute_segment` on (a copy of) the segment, then the bookkeeping of `pids` and
`want_exit`. -/
def line_step (env : Env) (ls : LineState) (seg : Str) : LineState :=
  let r := execute_segment env { ls.st with trace := ls.st.trace ++ [Event.segment seg] } seg
  let pids := if r.spawned_pid > 0 ∧ ls.pids.length < PIDS_CAP
              then ls.pids ++ [r.spawned_pid] else ls.pids
  let w := if r.want_exit then true else ls.want_exit
  { st := r.st, pids := pids, want_exit := w }

/-- The segment loop of `execute_normalized_line`, run over the pieces that
`strsep(&s, "&")` returns: each piece is trimmed, and skipped when empty. -/
def line_loop (env : Env) : List Str → LineState → LineState
  | [], ls => ls
  | piece :: rest, ls =>
    let seg := trim_trailing (trim_leading piece)
    if seg = [] then line_loop env rest ls
    else line_loop env rest (line_step env ls seg)

/-- The loop `for (i = 0; i < np; ++i) waitpid(pids[i], NULL, 0)`. -/
def wait_all (st : Shell) (pids : List Nat) : Shell :=
  { st with trace := st.trace ++ pids.map Event.wait }

/-- The function `execute_normalized_line`: the controller state afterwards and
the value returned (`true` is 1: exit was requested). -/
def execute_normalized_line (env : Env) (st : Shell) (norm : Str) : Shell × Bool :=
  let ls := line_loop env (strsep_pieces is_amp norm)
    { st := st, pids := [], want_exit := false }
  (wait_all ls.st ls.pids, ls.want_exit)

/-! ## The normalizer as a function of the last character written -/

/-- The test of `needs_space_before`, on the last character written (`none` when
`j = 0`). -/
def space_needed (prev : Option Char) : Bool :=
  match prev with
  | none => false
  | some p => p != ' ' && p != '\t'

/-- What the loop of `normalize_ops` appends to a buffer whose last character is
`prev`, each character paired with a flag: `true` for a character copied from the
line, `false` for an inserted space. -/
def normalize_marked : Option Char → Str → List (Char × Bool)
  | _, [] => []
  | prev, c :: rest =>
    if is_op c then
      (if space_needed prev then [(' ', false)] else [])
        ++ (c, true)
        :: (if needs_space_after rest then (' ', false) :: normalize_marked (some ' ') rest
            else normalize_marked (some c) rest)
    else (c, true) :: normalize_marked (some c) rest

/-- An operator in `s` has a space or tab (or nothing, when `prev` is `none`)
before it and a whitespace character (or nothing) after it; `prev` is the
character before `s`. -/
def well_spaced : Option Char → Str → Prop
  | _, [] => True
  | prev, c :: rest =>
    (is_op c = true → space_needed prev = false ∧ needs_space_after rest = false)
      ∧ well_spaced (some c) rest

/-- Every dropped entry is a space next to an operator; `prev_op` tells whether
the character before the list is an operator. -/
def marks_ok : Bool → List (Char × Bool) → Prop
  | _, [] => True
  | prev_op, (ch, keep) :: tl =>
    (keep = false → ch = ' ' ∧ (prev_op = true ∨ ∃ p, tl.head? = some p ∧ is_op p.1 = true))
      ∧ marks_ok (is_op ch) tl

/-! ## Concrete inputs -/

/-- The segment `ls > a > b`. -/
def seg_two_redirects : Str := "ls > a > b".toList

/-- A segment of 257 tokens: 255 times `a`, then `>` twice. -/
def seg_long_two_redirects : Str := (List.replicate 255 ['a', ' ']).flatten ++ ['>', ' ', '>']

/-- The segment `ls -l > out`. -/
def seg_redirect : Str := "ls -l > out".toList

/-- The line `ls>out`. -/
def line_glued : Str := "ls>out".toList

/-- The line `ls>`. -/
def line_trailing_op : Str := "ls>".toList

/-- A system in which every path is executable, `chdir` succeeds only for `/tmp`,
and the `k`-th `fork` returns the pid `101 + k`. -/
def demo_env : Env :=
  { access_x := fun _ _ => true
    chdir := fun _ d => if d = "/tmp".toList then some d else none
    fork := fun k => some (100 + k) }

/-- The controller state at startup: the search list is `/bin`. -/
def demo_shell : Shell :=
  { pathv := ["/bin".toList], cwd := "/home".toList, forks := 0, trace := [] }

/-! ## Reading a trace; the splitter in the spec's words -/

/-- The segments handed to `execute_segment`, in call order, as recorded in a trace. -/
def segments_of (trace : List Event) : List Str :=
  trace.filterMap (fun e => match e with
    | Event.segment s => some s
    | _ => none)

/-- The Segment Splitter in the spec's words (section 4.2): the pieces of the line
between `&` characters, each trimmed of leading and trailing whitespace, the empty
ones dropped. -/
def spec_segments (norm : Str) : List Str :=
  ((norm.splitOn '&').map (fun piece => (piece.dropWhile is_ws).rdropWhile is_ws)).filter
    (fun s => !s.isEmpty)

/-- The segment `path /bin /usr/bin`. -/
def seg_path : Str := "path /bin /usr/bin".toList

/-- The segment `cd /tmp`. -/
def seg_cd : Str := "cd /tmp".toList

/-- A system in which only `/usr/bin/ls` is executable. -/
def usr_env : Env :=
  { access_x := fun _ p => p == "/usr/bin/ls".toList
    chdir := fun _ _ => none
    fork := fun k => some k }

/-! ## Running several segments; reading spawns, waits and errors off a trace -/

/-- The controller state after `execute_segment` has been run on each segment of
a list in turn. -/
def run_segments (env : Env) (st : Shell) (segs : List Str) : Shell :=
  segs.foldl (fun s seg => (execute_segment env s seg).st) st

/-- The pids of the children spawned, in spawn order, as recorded in a trace. -/
def spawned_of (trace : List Event) : List Nat :=
  trace.filterMap (fun e => match e with
    | Event.spawn pid _ _ _ => some pid
    | _ => none)

/-- The pids waited on, in order, as recorded in a trace. -/
def waited_of (trace : List Event) : List Nat :=
  trace.filterMap (fun e => match e with
    | Event.wait pid => some pid
    | _ => none)

/-- The number of diagnostic lines written, as recorded in a trace. -/
def errors_of (trace : List Event) : Nat := trace.count Event.error

/-- The segment `path`. -/
def seg_path_empty : Str := "path".toList

/-- The segment `ls -l`. -/
def seg_ls : Str := "ls -l".toList

/-- The segment `exit extra`. -/
def seg_exit_extra : Str := "exit extra".toList

/-- The segment `cd a b`. -/
def seg_cd_two : Str := "cd a b".toList

/-- A line of 257 external commands: `a&a&...&a`. -/
def line_257_commands : Str := (List.replicate 256 ['a', '&']).flatten ++ ['a']

/-- The line `exit&a&a&...&a`: a bare `exit`, then 257 external commands. -/
def line_exit_257_commands : Str := "exit&".toList ++ line_257_commands

/-! ## Where the controller reports, and the failures of a segment -/

/-- The `cd` built-in fails unless it has exactly one argument and the directory
change succeeds. -/
def cd_fails (env : Env) (st : Shell) (args : List Str) : Bool :=
  match args with
  | [dir] => (env.chdir st.cwd dir).isNone
  | _ => true

/-- The paths through `parse_simple_command` and `execute_segment` that end in a
call of `print_error`, read off the source: the parser's `return -1`; the argument
and redirection checks of `exit`, `cd` and `path`; a failed `chdir`; the empty
search list; an unresolved name; a failed `fork`. -/
def reports_error (env : Env) (st : Shell) (seg : Str) : Bool :=
  if (parse_simple_command seg MAXV).ret < 0 then true
  else
    match (parse_simple_command seg MAXV).argv with
    | [] => false
    | name :: args =>
      if name = EXIT then
        (parse_simple_command seg MAXV).redir.isSome || !args.isEmpty
      else if name = CD then
        (parse_simple_command seg MAXV).redir.isSome || cd_fails env st args
      else if name = PATH then
        (parse_simple_command seg MAXV).redir.isSome
      else
        st.pathv.isEmpty
          || (resolve_command_path (env.access_x st.cwd) st.pathv name).isNone
          || (env.fork st.forks).isNone

/-- A redirection syntax error in the words of the spec (section 4.3), on a list of
tokens: more than one `>`, a `>` at position 0, a `>` as the last token, or more
than one token after a `>`. -/
def redirection_malformed (toks : List Str) : Bool :=
  decide (1 < toks.count GT)
    || toks.head? == some GT
    || toks.getLast? == some GT
    || (List.range toks.length).any
        (fun i => toks[i]? == some GT && decide (i + 2 < toks.length))

/-- The tokens before the first `>`: the command name and its arguments. -/
def command_words (toks : List Str) : List Str := toks.takeWhile (fun t => t != GT)

/-- The failures of a segment with the whitespace-separated tokens `toks`, in the
words of the error-reporting contract: a redirection syntax error; misuse of a
built-in (`exit` with an argument or a redirection, `cd` without exactly one
argument or with a redirection, `path` with a redirection); a failed directory
change; an external command met with an empty search list, not found, or whose
process could not be created. A blank segment does not fail. -/
def segment_fails (env : Env) (st : Shell) (toks : List Str) : Bool :=
  if redirection_malformed toks then true
  else
    match command_words toks with
    | [] => false
    | name :: args =>
      if name = EXIT then toks.contains GT || !args.isEmpty
      else if name = CD then toks.contains GT || cd_fails env st args
      else if name = PATH then toks.contains GT
      else
        st.pathv.isEmpty
          || (resolve_command_path (env.access_x st.cwd) st.pathv name).isNone
          || (env.fork st.forks).isNone

/-- A segment of 200 tokens, each `a`. -/
def seg_200_words : Str := (List.replicate 200 ['a', ' ']).flatten

/-- A segment of 257 tokens: `path`, 254 times `d`, then `>` and `f`. -/
def seg_path_hidden_redirect : Str :=
  "path ".toList ++ (List.replicate 254 ['d', ' ']).flatten ++ "> f".toList

/-! # Theorems -/

/-! ## Tokenizer lemmas -/

/-- The piece list is what iterating `strsep` until `s` is NULL returns. -/
theorem strsep_pieces_unfold (d : Char → Bool) (s : Str) :
    strsep_pieces d s =
      match (strsep d s).2 with
      | none => [(strsep d s).1]
      | some r => (strsep d s).1 :: strsep_pieces d r := by
  induction s with
  | nil => simp [strsep_pieces, strsep]
  | cons c cs ih =>
    by_cases h : d c = true
    · simp [strsep_pieces, strsep, h]
    · simp only [strsep_pieces, strsep, h, if_false]
      rw [ih]
      cases h2 : (strsep d cs).2 <;> simp [h2]

theorem collect_toks_eq (cap : Nat) (pieces toks : List Str) (h : toks.length ≤ cap) :
    collect_toks cap pieces toks
      = toks ++ (pieces.filter (fun t => !t.isEmpty)).take (cap - toks.length) := by
  induction pieces generalizing toks with
  | nil => simp [collect_toks]
  | cons t rest ih =>
    simp only [collect_toks]
    by_cases ht : t = []
    · simp [ht, ih toks h]
    · have hne : (!t.isEmpty) = true := by
        cases t with
        | nil => exact absurd rfl ht
        | cons a b => rfl
      simp only [ht, if_false, List.filter_cons, hne, if_true]
      by_cases hc : toks.length ≥ cap
      · have : cap - toks.length = 0 := by omega
        simp [hc, this]
      · simp only [hc, if_false]
        rw [ih (toks ++ [t]) (by simp; omega)]
        have : cap - toks.length = (cap - (toks ++ [t]).length) + 1 := by simp; omega
        rw [this, List.take_succ_cons]
        simp

theorem examined_tokens_eq (seg : Str) : examined_tokens seg = (tokens seg).take TOKS_CAP := by
  unfold examined_tokens tokens
  rw [collect_toks_eq _ _ _ (Nat.zero_le _)]
  simp

theorem copy_argv_eq (maxv : Nat) (ts argv : List Str) :
    copy_argv maxv ts argv = argv ++ ts.take (maxv - 1 - argv.length) := by
  induction ts generalizing argv with
  | nil => simp [copy_argv]
  | cons t ts ih =>
    simp only [copy_argv]
    by_cases hc : argv.length + 1 < maxv
    · simp only [hc, if_true]
      rw [ih]
      have : maxv - 1 - argv.length = (maxv - 1 - (argv ++ [t]).length) + 1 := by simp; omega
      rw [this, List.take_succ_cons]
      simp
    · have : maxv - 1 - argv.length = 0 := by omega
      simp [hc, this]

theorem scan_gt_set (ts : List Str) (i g : Int) (hg : g ≠ -1) :
    scan_gt ts i g = if GT ∈ ts then none else some g := by
  induction ts generalizing i with
  | nil => simp [scan_gt]
  | cons t ts ih =>
    simp only [scan_gt]
    by_cases ht : t = GT
    · simp [ht, hg]
    · have : ¬ GT = t := fun h => ht h.symm
      simp [ht, ih, this]

theorem scan_gt_none_mem (ts : List Str) (i g : Int) (h : GT ∉ ts) :
    scan_gt ts i g = some g := by
  induction ts generalizing i with
  | nil => simp [scan_gt]
  | cons t ts ih =>
    simp only [List.mem_cons, not_or] at h
    have ht : ¬ t = GT := fun e => h.1 e.symm
    simp [scan_gt, ht, ih _ h.2]

theorem scan_gt_first (pre post : List Str) (i : Int) (hi : 0 ≤ i) (hpre : GT ∉ pre) :
    scan_gt (pre ++ GT :: post) i (-1)
      = if GT ∈ post then none else some (i + pre.length) := by
  induction pre generalizing i with
  | nil =>
    simp only [List.nil_append, scan_gt, if_true, List.length_nil]
    simp only [ne_eq, not_true_eq_false, if_false]
    rw [scan_gt_set _ _ _ (by omega)]
    simp
  | cons t ts ih =>
    simp only [List.mem_cons, not_or] at hpre
    have ht : ¬ t = GT := fun e => hpre.1 e.symm
    have e : scan_gt (t :: ts ++ GT :: post) i (-1) = scan_gt (ts ++ GT :: post) (i + 1) (-1) := by
      simp [scan_gt, ht]
    rw [e, ih (i + 1) (by omega) hpre.2]
    simp only [List.length_cons, Nat.cast_add, Nat.cast_one]
    split
    · rfl
    · congr 1; omega

theorem exists_first_gt (ts : List Str) (h : GT ∈ ts) :
    ∃ pre post, ts = pre ++ GT :: post ∧ GT ∉ pre := by
  induction ts with
  | nil => simp at h
  | cons t ts ih =>
    by_cases ht : t = GT
    · exact ⟨[], ts, by simp [ht], by simp⟩
    · have h2 : GT ∈ ts := by
        rcases List.mem_cons.1 h with e | e
        · exact absurd e.symm ht
        · exact e
      obtain ⟨pre, post, e, hp⟩ := ih h2
      refine ⟨t :: pre, post, by simp [e], ?_⟩
      simp only [List.mem_cons, not_or]
      exact ⟨fun e => ht e.symm, hp⟩

theorem parse_tokens_no_gt (toks : List Str) (maxv : Nat) (h : GT ∉ toks) :
    parse_tokens toks maxv
      = { ret := ((toks.take (maxv - 1)).length : Nat), argv := toks.take (maxv - 1),
          redir := none, errors := 0 } := by
  unfold parse_tokens
  by_cases h0 : toks = []
  · simp [h0]
  · have : ¬ ((toks.length : Int) = 0) := by
      intro e
      exact h0 (List.length_eq_zero.1 (by exact_mod_cast e))
    simp only [this, if_false, scan_gt_none_mem _ _ _ h, if_true, copy_argv_eq]
    simp

theorem parse_tokens_gt (pre post : List Str) (maxv : Nat) (hpre : GT ∉ pre) :
    parse_tokens (pre ++ GT :: post) maxv
      = if GT ∈ post ∨ pre = [] ∨ post.length ≠ 1 then ParseResult.syntax_error
        else { ret := ((pre.take (maxv - 1)).length : Nat), argv := pre.take (maxv - 1),
               redir := post.head?, errors := 0 } := by
  unfold parse_tokens
  have hlen : ¬ (((pre ++ GT :: post).length : Int) = 0) := by
    simp only [List.length_append, List.length_cons]; push_cast; omega
  simp only [hlen, if_false, scan_gt_first pre post 0 (le_refl _) hpre]
  by_cases hp : GT ∈ post
  · simp [hp]
  · simp only [hp, if_false, false_or]
    have hne : ¬ ((0 : Int) + (pre.length : Int) = -1) := by omega
    simp only [hne, if_false]
    by_cases hpe : pre = []
    · simp [hpe]
    · have hpl : 0 < pre.length := List.length_pos.2 hpe
      have h1 : ¬ ((0 : Int) + (pre.length : Int) = 0) := by omega
      simp only [h1, if_false, hpe, false_or]
      by_cases hpo : post.length = 1
      · have h2 : ¬ ((0 : Int) + (pre.length : Int) = ((pre ++ GT :: post).length : Int) - 1) := by
          simp only [List.length_append, List.length_cons]; push_cast; omega
        have h3 : ¬ ((0 : Int) + (pre.length : Int) + 2 ≠ ((pre ++ GT :: post).length : Int)) := by
          simp only [List.length_append, List.length_cons]; push_cast; omega
        simp only [h2, h3, if_false, hpo, ne_eq, not_true_eq_false]
        have h4 : ((0 : Int) + (pre.length : Int)).toNat = pre.length := by omega
        rw [h4, copy_argv_eq]
        have h5 : (pre ++ GT :: post)[pre.length + 1]? = post.head? := by
          rw [List.getElem?_append_right (by omega)]
          cases post with
          | nil => simp at hpo
          | cons f r => simp
        simp [h5]
      · simp only [hpo, ne_eq, not_false_eq_true, if_true]
        by_cases h2 : ((0 : Int) + (pre.length : Int) = ((pre ++ GT :: post).length : Int) - 1)
        · simp [h2]
        · simp only [h2, if_false]
          have h3 : ((0 : Int) + (pre.length : Int) + 2 ≠ ((pre ++ GT :: post).length : Int)) := by
            simp only [List.length_append, List.length_cons]; push_cast; omega
          rw [if_pos h3]

/-! ## Lists with a `>` token -/

theorem gt_index_unique (pre post : List Str) (k : Nat) (hpre : GT ∉ pre) (hpost : GT ∉ post)
    (hk : (pre ++ GT :: post)[k]? = some GT) : k = pre.length := by
  rcases Nat.lt_trichotomy k pre.length with h | h | h
  · rw [List.getElem?_append_left h] at hk
    exact absurd (List.getElem?_mem hk) hpre
  · exact h
  · rw [List.getElem?_append_right (by omega)] at hk
    obtain ⟨j, hj⟩ : ∃ j, k - pre.length = j + 1 := ⟨k - pre.length - 1, by omega⟩
    rw [hj, List.getElem?_cons_succ] at hk
    exact absurd (List.getElem?_mem hk) hpost

theorem count_gt_split (pre post : List Str) (hpre : GT ∉ pre) :
    (pre ++ GT :: post).count GT = 1 + post.count GT := by
  rw [List.count_append, List.count_cons_self, List.count_eq_zero.2 hpre]
  omega

/-- Each of the four malformed shapes makes the condition tested after the scan true. -/
theorem malformed_cond (pre post : List Str) (hpre : GT ∉ pre)
    (h : 1 < (pre ++ GT :: post).count GT ∨ (pre ++ GT :: post).head? = some GT
      ∨ (pre ++ GT :: post).getLast? = some GT
      ∨ ∃ i, (pre ++ GT :: post)[i]? = some GT ∧ i + 2 < (pre ++ GT :: post).length) :
    GT ∈ post ∨ pre = [] ∨ post.length ≠ 1 := by
  by_cases hpost : GT ∈ post
  · exact Or.inl hpost
  · right
    rcases h with h | h | h | ⟨i, hi, hlen⟩
    · rw [count_gt_split pre post hpre, List.count_eq_zero.2 hpost] at h
      omega
    · left
      cases pre with
      | nil => rfl
      | cons a as =>
        simp only [List.cons_append, List.head?_cons, Option.some.injEq] at h
        exact absurd (by simp [h]) hpre
    · right
      intro h1
      cases post with
      | nil => simp at h1
      | cons f r =>
        have hr : r = [] := List.length_eq_zero.1 (by simpa using h1)
        subst hr
        have e : (pre ++ GT :: [f]).getLast? = some f := by
          rw [show pre ++ GT :: [f] = (pre ++ [GT]) ++ [f] by simp, List.getLast?_append]
          simp
        rw [e] at h
        exact hpost (by simp at h; simp [h])
    · right
      have := gt_index_unique pre post i hpre hpost hi
      simp only [List.length_append, List.length_cons] at hlen
      omega

theorem mem_gt_of_malformed (toks : List Str)
    (h : 1 < toks.count GT ∨ toks.head? = some GT ∨ toks.getLast? = some GT
      ∨ ∃ i, toks[i]? = some GT ∧ i + 2 < toks.length) : GT ∈ toks := by
  rcases h with h | h | h | ⟨i, hi, _⟩
  · exact List.count_pos_iff.1 (by omega)
  · exact List.mem_of_mem_head? h
  · exact List.mem_of_mem_getLast? h
  · exact List.getElem?_mem hi

theorem parse_tokens_malformed (toks : List Str) (maxv : Nat)
    (h : 1 < toks.count GT ∨ toks.head? = some GT ∨ toks.getLast? = some GT
      ∨ ∃ i, toks[i]? = some GT ∧ i + 2 < toks.length) :
    parse_tokens toks maxv = ParseResult.syntax_error := by
  obtain ⟨pre, post, e, hpre⟩ := exists_first_gt toks (mem_gt_of_malformed toks h)
  subst e
  rw [parse_tokens_gt pre post maxv hpre, if_pos (malformed_cond pre post hpre h)]

theorem execute_segment_syntax_error (env : Env) (st : Shell) (seg : Str)
    (h : parse_simple_command seg MAXV = ParseResult.syntax_error) :
    execute_segment env st seg
      = { ret := -1, spawned_pid := 0, want_exit := false,
          st := { st with trace := st.trace ++ [Event.error] } } := by
  simp [execute_segment, h, ParseResult.syntax_error, report_errors, print_error]

/-- C1 (amended): when the tokens the parser examines (the first 255
whitespace-separated tokens of the segment) hold more than one `>`, or a `>` at
position 0, or a `>` as the last token, or a `>` followed by more than one token,
`parse_simple_command` returns -1 and `execute_segment` returns -1 having reported
the uniform error once, with no process spawned, no exit requested, and the
search list, working directory and fork count unchanged. -/
theorem C1_malformed_redirection_rejected (env : Env) (st : Shell) (seg : Str)
    (h : 1 < ((tokens seg).take TOKS_CAP).count GT
      ∨ ((tokens seg).take TOKS_CAP).head? = some GT
      ∨ ((tokens seg).take TOKS_CAP).getLast? = some GT
      ∨ ∃ i, ((tokens seg).take TOKS_CAP)[i]? = some GT
          ∧ i + 2 < ((tokens seg).take TOKS_CAP).length) :
    (parse_simple_command seg MAXV).ret = -1
      ∧ (parse_simple_command seg MAXV).errors = 1
      ∧ execute_segment env st seg
          = { ret := -1, spawned_pid := 0, want_exit := false,
              st := { pathv := st.pathv, cwd := st.cwd, forks := st.forks,
                      trace := st.trace ++ [Event.error] } } := by
  have hp : parse_simple_command seg MAXV = ParseResult.syntax_error := by
    unfold parse_simple_command
    rw [examined_tokens_eq]
    exact parse_tokens_malformed _ _ h
  refine ⟨by rw [hp]; rfl, by rw [hp]; rfl, ?_⟩
  rw [execute_segment_syntax_error env st seg hp]

/-- C2: for a segment with at most 127 tokens, `parse_simple_command` (called with
`MAXV`) succeeds exactly when the token list has no `>` or exactly one `>`, at a
position `k >= 1` and followed by exactly one token; on success the return value is
the length of the argument vector, which is the tokens before the operator (all
tokens when there is none), and the redirection target is the token after the
operator (none when there is no operator). -/
theorem C2_parse_simple_command_result (seg : Str) (hlen : (tokens seg).length ≤ 127) :
    (0 ≤ (parse_simple_command seg MAXV).ret
        ↔ ((tokens seg).count GT = 0
            ∨ ((tokens seg).count GT = 1
                ∧ ∃ k, 1 ≤ k ∧ (tokens seg)[k]? = some GT ∧ k + 2 = (tokens seg).length)))
      ∧ (0 ≤ (parse_simple_command seg MAXV).ret →
          (parse_simple_command seg MAXV).ret = (parse_simple_command seg MAXV).argv.length
          ∧ (parse_simple_command seg MAXV).errors = 0
          ∧ ((tokens seg).count GT = 0 →
              (parse_simple_command seg MAXV).argv = tokens seg
              ∧ (parse_simple_command seg MAXV).redir = none)
          ∧ (∀ k, (tokens seg)[k]? = some GT →
              (parse_simple_command seg MAXV).argv = (tokens seg).take k
              ∧ (tokens seg)[k + 1]? ≠ none
              ∧ (parse_simple_command seg MAXV).redir = (tokens seg)[k + 1]?)) := by
  have hp : parse_simple_command seg MAXV = parse_tokens (tokens seg) MAXV := by
    unfold parse_simple_command
    rw [examined_tokens_eq, List.take_of_length_le (by unfold TOKS_CAP; omega)]
  rw [hp]
  generalize tokens seg = toks at hlen
  by_cases hmem : GT ∈ toks
  · obtain ⟨pre, post, e, hpre⟩ := exists_first_gt toks hmem
    subst e
    have hcnt := count_gt_split pre post hpre
    have htake : pre.take (MAXV - 1) = pre := by
      apply List.take_of_length_le
      simp only [List.length_append, List.length_cons] at hlen
      unfold MAXV; omega
    rw [parse_tokens_gt pre post MAXV hpre, htake]
    by_cases hc : GT ∈ post ∨ pre = [] ∨ post.length ≠ 1
    · rw [if_pos hc]
      have hneg : ¬ ((0 : Int) ≤ ParseResult.syntax_error.ret) := by decide
      refine ⟨⟨fun h => absurd h hneg, ?_⟩, fun h => absurd h hneg⟩
      rintro (h0 | ⟨h1, k, hk1, hk, hk2⟩)
      · omega
      · exfalso
        have hpost : GT ∉ post := by
          apply List.count_eq_zero.1; omega
        have hkl := gt_index_unique pre post k hpre hpost hk
        simp only [List.length_append, List.length_cons] at hk2
        rcases hc with hc | hc | hc
        · exact hpost hc
        · subst hc; simp at hkl; omega
        · omega
    · rw [if_neg hc]
      simp only [not_or, ne_eq, not_not] at hc
      obtain ⟨hpost, hne, hl1⟩ := hc
      have hk0 : (pre ++ GT :: post)[pre.length]? = some GT := by
        rw [List.getElem?_append_right (le_refl _)]; simp
      refine ⟨⟨fun _ => Or.inr ⟨?_, pre.length, List.length_pos.2 hne, hk0, ?_⟩, ?_⟩, fun _ => ?_⟩
      · rw [hcnt, List.count_eq_zero.2 hpost]
      · simp only [List.length_append, List.length_cons]; omega
      · intro _; exact Int.natCast_nonneg _
      · refine ⟨rfl, rfl, fun h0 => by omega, fun k hk => ?_⟩
        have hkl := gt_index_unique pre post k hpre hpost hk
        subst hkl
        have hnext : (pre ++ GT :: post)[pre.length + 1]? = post.head? := by
          rw [List.getElem?_append_right (by omega)]
          cases post <;> simp
        refine ⟨by simp, ?_, by rw [hnext]⟩
        rw [hnext]
        cases post with
        | nil => simp at hl1
        | cons f r => simp
  · have h0 : toks.count GT = 0 := List.count_eq_zero.2 hmem
    have htake : toks.take (MAXV - 1) = toks :=
      List.take_of_length_le (by unfold MAXV; omega)
    rw [parse_tokens_no_gt toks MAXV hmem, htake]
    refine ⟨⟨fun _ => Or.inl h0, fun _ => Int.natCast_nonneg _⟩, fun _ => ?_⟩
    refine ⟨rfl, rfl, fun _ => ⟨rfl, rfl⟩, fun k hk => ?_⟩
    exact absurd (List.getElem?_mem hk) hmem

/-! ## Normalizer lemmas -/

theorem needs_space_before_eq (out : Str) : needs_space_before out = space_needed out.getLast? := by
  unfold needs_space_before space_needed
  rfl

theorem normalize_loop_eq (line out : Str) :
    normalize_loop line out = out ++ (normalize_marked out.getLast? line).map Prod.fst := by
  induction line generalizing out with
  | nil => simp [normalize_loop, normalize_marked]
  | cons c rest ih =>
    simp only [normalize_loop, normalize_marked, needs_space_before_eq]
    by_cases hop : is_op c = true
    · simp only [hop, if_true]
      rw [ih]
      by_cases hb : space_needed out.getLast? = true <;> by_cases ha : needs_space_after rest = true <;>
        simp [hb, ha, List.getLast?_append]
    · simp only [hop]
      rw [ih (out ++ [c])]
      simp [List.getLast?_append]

theorem normalize_ops_eq (line : Str) :
    normalize_ops line = (normalize_marked none line).map Prod.fst := by
  simp [normalize_ops, normalize_loop_eq]

theorem is_op_of_ws (c : Char) (h : is_ws c = true) : is_op c = false := by
  simp only [is_ws, Bool.or_eq_true, beq_iff_eq] at h
  rcases h with ((h | h) | h) | h <;> subst h <;> decide

theorem needs_space_after_cons (c : Char) (rest : Str) :
    needs_space_after (c :: rest) = !is_ws c := by
  simp only [needs_space_after, is_ws]
  cases h1 : (c == ' ') <;> cases h2 : (c == '\t') <;> cases h3 : (c == '\r') <;>
    cases h4 : (c == '\n') <;> simp [bne, h1, h2, h3, h4]

theorem well_spaced_normalize (prev : Option Char) (line : Str) :
    well_spaced prev ((normalize_marked prev line).map Prod.fst) := by
  induction line generalizing prev with
  | nil => simp [normalize_marked, well_spaced]
  | cons c rest ih =>
    simp only [normalize_marked]
    by_cases hop : is_op c = true
    · simp only [hop, if_true]
      have hsp : is_op ' ' = false := by decide
      have htail : needs_space_after
            ((if needs_space_after rest = true then (' ', false) :: normalize_marked (some ' ') rest
              else normalize_marked (some c) rest).map Prod.fst) = false
          ∧ well_spaced (some c)
            ((if needs_space_after rest = true then (' ', false) :: normalize_marked (some ' ') rest
              else normalize_marked (some c) rest).map Prod.fst) := by
        by_cases ha : needs_space_after rest = true
        · simp only [ha, if_true, List.map_cons, well_spaced, hsp]
          exact ⟨by simp [needs_space_after], by simp, ih _⟩
        · simp only [ha, if_false]
          refine ⟨?_, ih _⟩
          cases rest with
          | nil => simp [normalize_marked, needs_space_after]
          | cons nx r =>
            rw [needs_space_after_cons] at ha
            have hws : is_ws nx = true := by simpa using ha
            simp [normalize_marked, is_op_of_ws nx hws, needs_space_after_cons, hws]
      by_cases hb : space_needed prev = true
      · simp only [hb, if_true, List.singleton_append, List.map_cons, well_spaced, hsp]
        refine ⟨by simp, ⟨fun _ => ⟨by simp [space_needed], htail.1⟩, htail.2⟩⟩
      · simp only [hb, if_false, List.nil_append, List.map_cons, well_spaced]
        exact ⟨fun _ => ⟨by simp [hb], htail.1⟩, htail.2⟩
    · rw [if_neg hop]
      simp only [List.map_cons, well_spaced]
      exact ⟨fun h => absurd h hop, ih _⟩

theorem normalize_of_well_spaced (prev : Option Char) (s : Str) (h : well_spaced prev s) :
    (normalize_marked prev s).map Prod.fst = s := by
  induction s generalizing prev with
  | nil => simp [normalize_marked]
  | cons c rest ih =>
    simp only [well_spaced] at h
    simp only [normalize_marked]
    by_cases hop : is_op c = true
    · obtain ⟨hb, ha⟩ := h.1 hop
      simp [hop, hb, ha, ih _ h.2]
    · simp [hop, ih _ h.2]

theorem well_spaced_index (prev : Option Char) (s : Str) (h : well_spaced prev s)
    (k : Nat) (c : Char) (hk : s[k]? = some c) (hc : is_op c = true) :
    ((k = 0 ∧ space_needed prev = false)
        ∨ ∃ j p, k = j + 1 ∧ s[j]? = some p ∧ (p = ' ' ∨ p = '\t'))
      ∧ (k + 1 = s.length ∨ ∃ n, s[k + 1]? = some n ∧ is_ws n = true) := by
  induction s generalizing prev k with
  | nil => simp at hk
  | cons a rest ih =>
    simp only [well_spaced] at h
    cases k with
    | zero =>
      simp only [List.getElem?_cons_zero, Option.some.injEq] at hk
      subst hk
      obtain ⟨hb, ha⟩ := h.1 hc
      refine ⟨Or.inl ⟨rfl, hb⟩, ?_⟩
      cases rest with
      | nil => left; rfl
      | cons nx r =>
        right
        rw [needs_space_after_cons] at ha
        exact ⟨nx, by simp, by simpa using ha⟩
    | succ k =>
      simp only [List.getElem?_cons_succ] at hk
      obtain ⟨hbefore, hafter⟩ := ih (some a) h.2 k hk
      constructor
      · right
        rcases hbefore with ⟨h0, hs⟩ | ⟨j, p, hj, hp, hpp⟩
        · subst h0
          refine ⟨0, a, rfl, by simp, ?_⟩
          simp only [space_needed, Bool.and_eq_false_imp, bne_iff_ne, ne_eq] at hs
          by_cases e : a = ' '
          · exact Or.inl e
          · right
            have := hs e
            simpa [bne] using this
        · exact ⟨j + 1, p, by omega, by simpa using hp, hpp⟩
      · rcases hafter with hl | ⟨n, hn, hw⟩
        · left; simp; omega
        · right; exact ⟨n, by simpa using hn, hw⟩

theorem marks_ok_normalize (b : Bool) (prev : Option Char) (line : Str) :
    marks_ok b (normalize_marked prev line) := by
  induction line generalizing prev b with
  | nil => simp [normalize_marked, marks_ok]
  | cons c rest ih =>
    simp only [normalize_marked]
    by_cases hop : is_op c = true
    · rw [if_pos hop]
      have htail : marks_ok true
          (if needs_space_after rest = true then (' ', false) :: normalize_marked (some ' ') rest
           else normalize_marked (some c) rest) := by
        by_cases ha : needs_space_after rest = true
        · rw [if_pos ha]
          simp only [marks_ok]
          exact ⟨fun _ => ⟨trivial, Or.inl trivial⟩, ih _ _⟩
        · rw [if_neg ha]
          exact ih _ _
      by_cases hb : space_needed prev = true
      · rw [if_pos hb]
        simp only [List.singleton_append, marks_ok]
        refine ⟨fun _ => ⟨trivial, Or.inr ⟨(c, true), by simp, hop⟩⟩, by simp, ?_⟩
        rw [hop]; exact htail
      · rw [if_neg hb]
        simp only [List.nil_append, marks_ok]
        refine ⟨by simp, ?_⟩
        rw [hop]; exact htail
    · rw [if_neg hop]
      simp only [marks_ok]
      exact ⟨by simp, ih _ _⟩

/-- The flag-`true` entries of the marked output are the line itself. -/
theorem kept_normalize (prev : Option Char) (line : Str) :
    (normalize_marked prev line).filterMap (fun p => if p.2 = true then some p.1 else none)
      = line := by
  induction line generalizing prev with
  | nil => simp [normalize_marked]
  | cons c rest ih =>
    simp only [normalize_marked]
    by_cases hop : is_op c = true
    · rw [if_pos hop]
      by_cases hb : space_needed prev = true <;> by_cases ha : needs_space_after rest = true <;>
        simp [hb, ha, ih]
    · rw [if_neg hop]
      simp [ih]

theorem marks_ok_index (b : Bool) (m : List (Char × Bool)) (h : marks_ok b m) (k : Nat)
    (hk : (m.map Prod.snd)[k]? = some false) :
    (m.map Prod.fst)[k]? = some ' '
      ∧ ((∃ c, (m.map Prod.fst)[k + 1]? = some c ∧ is_op c = true)
          ∨ (k = 0 ∧ b = true)
          ∨ ∃ j c, k = j + 1 ∧ (m.map Prod.fst)[j]? = some c ∧ is_op c = true) := by
  induction m generalizing b k with
  | nil => simp at hk
  | cons a tl ih =>
    obtain ⟨ch, keep⟩ := a
    simp only [marks_ok] at h
    cases k with
    | zero =>
      simp only [List.map_cons, List.getElem?_cons_zero, Option.some.injEq] at hk
      obtain ⟨hch, hadj⟩ := h.1 hk
      refine ⟨by simp [hch], ?_⟩
      rcases hadj with hb | ⟨p, hp, hpo⟩
      · exact Or.inr (Or.inl ⟨rfl, hb⟩)
      · left
        refine ⟨p.1, ?_, hpo⟩
        cases tl with
        | nil => simp at hp
        | cons q r =>
          simp only [List.head?_cons, Option.some.injEq] at hp
          simp [hp]
    | succ k =>
      simp only [List.map_cons, List.getElem?_cons_succ] at hk
      obtain ⟨h1, h2⟩ := ih (is_op ch) h.2 k hk
      refine ⟨by simpa using h1, ?_⟩
      rcases h2 with ⟨c, hc, hco⟩ | ⟨h0, hb⟩ | ⟨j, c, hj, hc, hco⟩
      · exact Or.inl ⟨c, by simpa using hc, hco⟩
      · right; right
        exact ⟨0, ch, by omega, by simp, hb⟩
      · right; right
        exact ⟨j + 1, c, by omega, by simpa using hc, hco⟩

theorem normalize_marked_no_op (prev : Option Char) (line : Str)
    (h : ∀ c ∈ line, is_op c = false) :
    (normalize_marked prev line).map Prod.fst = line := by
  induction line generalizing prev with
  | nil => simp [normalize_marked]
  | cons c rest ih =>
    have hc : is_op c = false := h c (by simp)
    simp only [normalize_marked, hc]
    simp [ih _ (fun d hd => h d (by simp [hd]))]

theorem zip_fst_snd (m : List (Char × Bool)) : (m.map Prod.fst).zip (m.map Prod.snd) = m := by
  induction m with
  | nil => rfl
  | cons a tl ih => simp [ih]

/-- C3 (amended): every `>` or `&` in `normalize_ops line` is the first character of
the output or has a space or tab immediately before it, and is the last character
of the output or has a whitespace character immediately after it. -/
theorem C3_operators_spaced (line : Str) (k : Nat) (c : Char)
    (hk : (normalize_ops line)[k]? = some c) (hc : is_op c = true) :
    (k = 0 ∨ ∃ j p, k = j + 1 ∧ (normalize_ops line)[j]? = some p ∧ (p = ' ' ∨ p = '\t'))
      ∧ (k + 1 = (normalize_ops line).length
          ∨ ∃ n, (normalize_ops line)[k + 1]? = some n ∧ is_ws n = true) := by
  have hw : well_spaced none (normalize_ops line) := by
    rw [normalize_ops_eq]; exact well_spaced_normalize none line
  obtain ⟨h1, h2⟩ := well_spaced_index none _ hw k c hk hc
  refine ⟨?_, h2⟩
  rcases h1 with ⟨h0, _⟩ | h
  · exact Or.inl h0
  · exact Or.inr h

/-- C4: the line is recovered from `normalize_ops line` by deleting characters
(those whose `keep` flag is `false`), each of which is a space standing immediately
before or immediately after a `>` or `&` of the output; and a line without `>` or
`&` is returned unchanged. -/
theorem C4_only_spaces_inserted (line : Str) :
    (∃ keep : List Bool, keep.length = (normalize_ops line).length
        ∧ ((normalize_ops line).zip keep).filterMap
            (fun p => if p.2 = true then some p.1 else none) = line
        ∧ ∀ k, keep[k]? = some false →
            (normalize_ops line)[k]? = some ' '
            ∧ ((∃ c, (normalize_ops line)[k + 1]? = some c ∧ is_op c = true)
                ∨ ∃ j c, k = j + 1 ∧ (normalize_ops line)[j]? = some c ∧ is_op c = true))
      ∧ ((∀ c ∈ line, is_op c = false) → normalize_ops line = line) := by
  constructor
  · refine ⟨(normalize_marked none line).map Prod.snd, ?_, ?_, ?_⟩
    · simp [normalize_ops_eq]
    · rw [normalize_ops_eq, zip_fst_snd]
      exact kept_normalize none line
    · intro k hk
      rw [normalize_ops_eq]
      obtain ⟨h1, h2⟩ := marks_ok_index false _ (marks_ok_normalize false none line) k hk
      refine ⟨h1, ?_⟩
      rcases h2 with h | ⟨_, hb⟩ | h
      · exact Or.inl h
      · exact absurd hb (by decide)
      · exact Or.inr h
  · intro h
    rw [normalize_ops_eq]
    exact normalize_marked_no_op none line h

/-- C5: `normalize_ops` is idempotent. -/
theorem C5_normalize_ops_idempotent (line : Str) :
    normalize_ops (normalize_ops line) = normalize_ops line := by
  rw [normalize_ops_eq (normalize_ops line)]
  apply normalize_of_well_spaced
  rw [normalize_ops_eq]
  exact well_spaced_normalize none line

/-- Witness for C1 at the segment `ls > a > b`. -/
theorem C1_witness :
    1 < ((tokens seg_two_redirects).take TOKS_CAP).count GT
      ∧ (parse_simple_command seg_two_redirects MAXV).ret = -1
      ∧ (execute_segment demo_env demo_shell seg_two_redirects).spawned_pid = 0 :=
  ⟨by decide,
   (C1_malformed_redirection_rejected demo_env demo_shell seg_two_redirects
      (Or.inl (by decide))).1,
   by rw [(C1_malformed_redirection_rejected demo_env demo_shell seg_two_redirects
      (Or.inl (by decide))).2.2]⟩

/-- Counterexample to C1 as stated: a segment whose token list holds two `>`
tokens, both beyond the 255 tokens the parser examines, parses successfully with
127 arguments and is spawned. -/
theorem C1_counterexample :
    1 < (tokens seg_long_two_redirects).count GT
      ∧ (parse_simple_command seg_long_two_redirects MAXV).ret = 127
      ∧ (parse_simple_command seg_long_two_redirects MAXV).errors = 0
      ∧ (execute_segment demo_env demo_shell seg_long_two_redirects).ret = 0
      ∧ (execute_segment demo_env demo_shell seg_long_two_redirects).spawned_pid = 101 := by
  set_option maxRecDepth 100000 in decide

/-- Witness for C2 at the segment `ls -l > out`. -/
theorem C2_witness :
    (tokens seg_redirect).length ≤ 127
      ∧ (parse_simple_command seg_redirect MAXV).argv = (tokens seg_redirect).take 2
      ∧ (parse_simple_command seg_redirect MAXV).redir = (tokens seg_redirect)[2 + 1]? :=
  ⟨by decide,
   (((C2_parse_simple_command_result seg_redirect (by decide)).2 (by decide)).2.2.2 2
      (by decide)).1,
   (((C2_parse_simple_command_result seg_redirect (by decide)).2 (by decide)).2.2.2 2
      (by decide)).2.2⟩

/-- Witness for C3 at the line `ls>out`, whose output has `>` at index 3. -/
theorem C3_witness :
    (normalize_ops line_glued)[3]? = some '>'
      ∧ ((3 = 0 ∨ ∃ j p, 3 = j + 1 ∧ (normalize_ops line_glued)[j]? = some p
              ∧ (p = ' ' ∨ p = '\t'))
          ∧ (3 + 1 = (normalize_ops line_glued).length
              ∨ ∃ n, (normalize_ops line_glued)[3 + 1]? = some n ∧ is_ws n = true)) :=
  ⟨by decide, C3_operators_spaced line_glued 3 '>' (by decide) (by decide)⟩

/-- Counterexample to C3 as stated: `ls>` is normalized to `ls >`, whose `>` is the
last character, with no whitespace character after it. -/
theorem C3_counterexample :
    normalize_ops line_trailing_op = "ls >".toList
      ∧ ¬ (∀ k c, (normalize_ops line_trailing_op)[k]? = some c → is_op c = true →
            (∃ j p, k = j + 1 ∧ (normalize_ops line_trailing_op)[j]? = some p ∧ is_ws p = true)
              ∧ (∃ n, (normalize_ops line_trailing_op)[k + 1]? = some n ∧ is_ws n = true)) := by
  refine ⟨by decide, fun h => ?_⟩
  obtain ⟨_, n, hn, _⟩ := h 3 '>' (by decide) (by decide)
  have e : (normalize_ops line_trailing_op)[3 + 1]? = none := by decide
  rw [e] at hn
  exact absurd hn (by simp)

/-! ## Segment splitter lemmas -/

theorem strsep_pieces_eq_splitOn (norm : Str) : strsep_pieces is_amp norm = norm.splitOn '&' := by
  unfold List.splitOn
  induction norm with
  | nil => simp [strsep_pieces]
  | cons c cs ih =>
    rw [List.splitOnP_cons, strsep_pieces, ih]
    have hc : is_amp c = (c == '&') := rfl
    rw [hc]
    by_cases h : (c == '&') = true
    · simp [h]
    · simp only [h, if_false]
      cases h2 : List.splitOnP (fun x => x == '&') cs with
      | nil => exact absurd h2 (List.splitOnP_ne_nil _ _)
      | cons t ts => simp [List.modifyHead]

theorem trim_leading_eq (s : Str) : trim_leading s = s.dropWhile is_ws := by
  induction s with
  | nil => rfl
  | cons c cs ih =>
    by_cases h : is_ws c = true
    · simp [trim_leading, List.dropWhile, h, ih]
    · simp [trim_leading, List.dropWhile, h]

theorem trim_trailing_eq (s : Str) : trim_trailing s = s.rdropWhile is_ws := by
  unfold trim_trailing List.rdropWhile
  rw [trim_leading_eq]

theorem line_loop_eq_foldl (env : Env) (pieces : List Str) (ls : LineState) :
    line_loop env pieces ls
      = ((pieces.map (fun piece => (piece.dropWhile is_ws).rdropWhile is_ws)).filter
          (fun s => !s.isEmpty)).foldl (line_step env) ls := by
  induction pieces generalizing ls with
  | nil => simp [line_loop]
  | cons p rest ih =>
    simp only [line_loop, trim_trailing_eq, trim_leading_eq, List.map_cons, List.filter_cons]
    by_cases h : List.rdropWhile is_ws (List.dropWhile is_ws p) = []
    · simp [h, ih]
    · have hne : (!(List.rdropWhile is_ws (List.dropWhile is_ws p)).isEmpty) = true := by
        cases h2 : List.rdropWhile is_ws (List.dropWhile is_ws p) with
        | nil => exact absurd h2 h
        | cons a b => rfl
      rw [if_neg h, if_pos hne, List.foldl_cons, ih]

theorem report_errors_eq (n : Nat) (st : Shell) :
    report_errors n st = { st with trace := st.trace ++ List.replicate n Event.error } := by
  induction n generalizing st with
  | zero => simp [report_errors]
  | succ n ih =>
    simp only [report_errors, ih, print_error, List.replicate_succ]
    simp

theorem segments_of_append (a b : List Event) :
    segments_of (a ++ b) = segments_of a ++ segments_of b := by
  simp [segments_of]

theorem segments_of_replicate_error (n : Nat) :
    segments_of (List.replicate n Event.error) = [] := by
  induction n with
  | zero => rfl
  | succ n ih => simp [List.replicate_succ, segments_of] at ih ⊢

theorem segments_of_execute_segment (env : Env) (st : Shell) (seg : Str) :
    segments_of (execute_segment env st seg).st.trace = segments_of st.trace := by
  unfold execute_segment
  simp only [report_errors_eq]
  repeat' split
  all_goals
    simp [print_error, set_path, segments_of_append, segments_of_replicate_error]
  all_goals
    simp [segments_of]

theorem segments_of_line_step (env : Env) (ls : LineState) (seg : Str) :
    segments_of (line_step env ls seg).st.trace = segments_of ls.st.trace ++ [seg] := by
  simp only [line_step, segments_of_execute_segment, segments_of_append]
  simp [segments_of]

theorem segments_of_foldl (env : Env) (segs : List Str) (ls : LineState) :
    segments_of (segs.foldl (line_step env) ls).st.trace = segments_of ls.st.trace ++ segs := by
  induction segs generalizing ls with
  | nil => simp
  | cons s rest ih => simp [ih, segments_of_line_step]

theorem resolve_loop_first (x_ok : Str → Bool) (name : Str) (pathv : List Str) (i : Nat) (d : Str)
    (hd : pathv[i]? = some d) (hx : x_ok (d ++ ['/'] ++ name) = true)
    (hfirst : ∀ (j : Nat) (e : Str), j < i → pathv[j]? = some e → x_ok (e ++ ['/'] ++ name) = false) :
    resolve_loop x_ok name pathv = some (d ++ ['/'] ++ name) := by
  induction pathv generalizing i with
  | nil => simp at hd
  | cons a rest ih =>
    cases i with
    | zero =>
      simp only [List.getElem?_cons_zero, Option.some.injEq] at hd
      subst hd
      simp only [resolve_loop, join_dir_cmd, hx, if_true]
    | succ i =>
      have ha : x_ok (a ++ ['/'] ++ name) = false := hfirst 0 a (by omega) (by simp)
      simp only [List.getElem?_cons_succ] at hd
      simp only [resolve_loop, join_dir_cmd, ha]
      exact ih i hd (fun j e hj he => hfirst (j + 1) e (by omega) (by simpa using he))

theorem resolve_loop_none (x_ok : Str → Bool) (name : Str) (pathv : List Str)
    (h : ∀ d ∈ pathv, x_ok (d ++ ['/'] ++ name) = false) :
    resolve_loop x_ok name pathv = none := by
  induction pathv with
  | nil => rfl
  | cons a rest ih =>
    have ha : x_ok (a ++ ['/'] ++ name) = false := h a (by simp)
    simp only [resolve_loop, join_dir_cmd, ha]
    exact ih (fun d hd => h d (by simp [hd]))

theorem resolve_plain_eq (x_ok : Str → Bool) (name : Str) (pathv : List Str)
    (hname : name ≠ []) (hslash : '/' ∉ name) :
    resolve_command_path x_ok pathv name = resolve_loop x_ok name pathv := by
  unfold resolve_command_path
  rw [if_neg hname, if_neg hslash]
  by_cases hp : pathv = []
  · rw [if_pos hp, hp]; rfl
  · rw [if_neg hp]

/-- C7: for a command name without `/` (a token of the segment, so not the empty
string), `resolve_command_path` returns `d ++ "/" ++ name` for the first directory
`d` of the search list whose joined path is executable, and not-found when no
directory of the list (possibly empty) gives an executable joined path. -/
theorem C7_first_match_wins (x_ok : Str → Bool) (pathv : List Str) (name : Str)
    (hname : name ≠ []) (hslash : '/' ∉ name) :
    (∀ (i : Nat) (d : Str), pathv[i]? = some d → x_ok (d ++ ['/'] ++ name) = true →
        (∀ (j : Nat) (e : Str), j < i → pathv[j]? = some e → x_ok (e ++ ['/'] ++ name) = false) →
        resolve_command_path x_ok pathv name = some (d ++ ['/'] ++ name))
      ∧ ((∀ d ∈ pathv, x_ok (d ++ ['/'] ++ name) = false) →
          resolve_command_path x_ok pathv name = none) := by
  rw [resolve_plain_eq x_ok name pathv hname hslash]
  exact ⟨fun i d hd hx hf => resolve_loop_first x_ok name pathv i d hd hx hf,
    resolve_loop_none x_ok name pathv⟩

/-- Witness for C7: with the search list `/bin`, `/usr/bin` and only `/usr/bin/ls`
executable, `ls` resolves to `/usr/bin/ls`. -/
theorem C7_witness :
    "ls".toList ≠ [] ∧ '/' ∉ "ls".toList
      ∧ resolve_command_path (fun p => p == "/usr/bin/ls".toList)
          ["/bin".toList, "/usr/bin".toList] "ls".toList = some "/usr/bin/ls".toList :=
  ⟨by decide, by decide,
   (C7_first_match_wins (fun p => p == "/usr/bin/ls".toList)
      ["/bin".toList, "/usr/bin".toList] "ls".toList (by decide) (by decide)).1
      1 "/usr/bin".toList (by decide) (by decide)
      (fun j e hj he => by
        have hj0 : j = 0 := by omega
        subst hj0
        simp only [List.getElem?_cons_zero, Option.some.injEq] at he
        subst he
        decide)⟩

/-- Every entry of the argument vector `parse_simple_command` returns is a
non-empty string: empty tokens are skipped by the token loop. -/
theorem parse_argv_nonempty (seg : Str) (maxv : Nat) :
    ∀ a ∈ (parse_simple_command seg maxv).argv, a ≠ [] := by
  have htok : ∀ t ∈ (tokens seg).take TOKS_CAP, t ≠ [] := by
    intro t ht
    have h2 := List.mem_of_mem_take ht
    simp only [tokens, List.mem_filter] at h2
    intro e
    rw [e] at h2
    simp at h2
  unfold parse_simple_command
  rw [examined_tokens_eq]
  by_cases hmem : GT ∈ (tokens seg).take TOKS_CAP
  · obtain ⟨pre, post, e, hpre⟩ := exists_first_gt _ hmem
    rw [e, parse_tokens_gt pre post maxv hpre]
    split
    · intro a ha
      simp [ParseResult.syntax_error] at ha
    · intro a ha
      apply htok
      rw [e]
      exact List.mem_append_left _ (List.mem_of_mem_take ha)
  · rw [parse_tokens_no_gt _ maxv hmem]
    intro a ha
    exact htok a (List.mem_of_mem_take ha)

/-! ## Segment executor lemmas -/

theorem parse_tokens_shape (toks : List Str) (maxv : Nat) :
    parse_tokens toks maxv = ParseResult.syntax_error
      ∨ ((parse_tokens toks maxv).ret = (parse_tokens toks maxv).argv.length
          ∧ (parse_tokens toks maxv).errors = 0) := by
  by_cases hmem : GT ∈ toks
  · obtain ⟨pre, post, e, hpre⟩ := exists_first_gt toks hmem
    subst e
    rw [parse_tokens_gt pre post maxv hpre]
    split
    · exact Or.inl rfl
    · exact Or.inr ⟨rfl, rfl⟩
  · rw [parse_tokens_no_gt toks maxv hmem]
    exact Or.inr ⟨rfl, rfl⟩

/-- C9: for a segment whose tokens are `path d1 ... dn` (n >= 0, none of them `>`,
at most 127 tokens in all), `execute_segment` replaces the search list by
`[d1, ..., dn]` whatever it held before, and does nothing else. -/
theorem C9_path_replaces_list (env : Env) (st : Shell) (seg : Str) (ds : List Str)
    (htok : tokens seg = PATH :: ds) (hgt : GT ∉ ds) (hlen : (tokens seg).length ≤ 127) :
    execute_segment env st seg
      = { ret := 0, spawned_pid := 0, want_exit := false,
          st := { pathv := ds, cwd := st.cwd, forks := st.forks, trace := st.trace } } := by
  have hmem : GT ∉ tokens seg := by
    rw [htok]
    simp only [List.mem_cons, not_or]
    exact ⟨by decide, hgt⟩
  have hp : parse_simple_command seg MAXV
      = { ret := ((ds.length + 1 : Nat) : Int), argv := PATH :: ds, redir := none, errors := 0 } := by
    unfold parse_simple_command
    rw [examined_tokens_eq, List.take_of_length_le (by unfold TOKS_CAP; omega),
      parse_tokens_no_gt _ _ hmem, List.take_of_length_le (by unfold MAXV; omega), htok]
    simp
  have hr1 : ¬ (((ds.length + 1 : Nat) : Int) < 0) := by omega
  have hr2 : ¬ (((ds.length + 1 : Nat) : Int) = 0) := by omega
  unfold execute_segment
  simp only [hp, report_errors, hr1, hr2, if_false]
  have e1 : ¬ PATH = EXIT := by decide
  have e2 : ¬ PATH = CD := by decide
  simp [e1, e2, set_path]

/-- Witness for C9 at the segment `path /bin /usr/bin`. -/
theorem C9_witness :
    tokens seg_path = PATH :: ["/bin".toList, "/usr/bin".toList]
      ∧ (execute_segment demo_env demo_shell seg_path).st.pathv
          = ["/bin".toList, "/usr/bin".toList] :=
  ⟨by decide,
   by rw [C9_path_replaces_list demo_env demo_shell seg_path
      ["/bin".toList, "/usr/bin".toList] (by decide) (by decide) (by decide)]⟩

/-! ## Parsing a segment whose first token is known -/

theorem take_cap_cons (name : Str) (rest : List Str) :
    (name :: rest).take TOKS_CAP = name :: rest.take 254 := by
  unfold TOKS_CAP
  rw [show (255 : Nat) = 254 + 1 from rfl, List.take_succ_cons]

theorem take_maxv_cons (name : Str) (rest : List Str) :
    (name :: rest).take (MAXV - 1) = name :: rest.take 126 := by
  unfold MAXV
  rw [show (128 - 1 : Nat) = 126 + 1 from rfl, List.take_succ_cons]

/-- With a first token `name`, the parse is the syntax error or a success whose
argument vector starts with `name`. -/
theorem parse_of_head (seg : Str) (name : Str) (rest : List Str)
    (htok : tokens seg = name :: rest) :
    parse_simple_command seg MAXV = ParseResult.syntax_error
      ∨ ∃ args, (parse_simple_command seg MAXV).argv = name :: args
          ∧ (parse_simple_command seg MAXV).errors = 0
          ∧ (parse_simple_command seg MAXV).ret = ((args.length + 1 : Nat) : Int) := by
  unfold parse_simple_command
  rw [examined_tokens_eq, htok, take_cap_cons]
  by_cases hmem : GT ∈ name :: rest.take 254
  · obtain ⟨pre, post, e, hpre⟩ := exists_first_gt _ hmem
    rw [e, parse_tokens_gt pre post MAXV hpre]
    by_cases hc : GT ∈ post ∨ pre = [] ∨ post.length ≠ 1
    · left; rw [if_pos hc]
    · right
      rw [if_neg hc]
      simp only [not_or] at hc
      cases pre with
      | nil => exact absurd rfl hc.2.1
      | cons a as =>
        simp only [List.cons_append, List.cons.injEq] at e
        rw [← e.1, take_maxv_cons]
        exact ⟨as.take 126, rfl, rfl, by simp⟩
  · right
    rw [parse_tokens_no_gt _ MAXV hmem, take_maxv_cons]
    exact ⟨(rest.take 254).take 126, rfl, rfl, by simp⟩

theorem spawned_of_append (a b : List Event) :
    spawned_of (a ++ b) = spawned_of a ++ spawned_of b := by
  simp [spawned_of]

/-- A helper form of the effect of a valid `path` command. -/
theorem execute_segment_path (env : Env) (st : Shell) (seg : Str) (ds : List Str)
    (htok : tokens seg = PATH :: ds) (hgt : GT ∉ ds) (hlen : (tokens seg).length ≤ 127) :
    execute_segment env st seg
      = { ret := 0, spawned_pid := 0, want_exit := false,
          st := { pathv := ds, cwd := st.cwd, forks := st.forks, trace := st.trace } } := by
  have hmem : GT ∉ tokens seg := by
    rw [htok]
    simp only [List.mem_cons, not_or]
    exact ⟨by decide, hgt⟩
  have hp : parse_simple_command seg MAXV
      = { ret := ((ds.length + 1 : Nat) : Int), argv := PATH :: ds, redir := none, errors := 0 } := by
    unfold parse_simple_command
    rw [examined_tokens_eq, List.take_of_length_le (by unfold TOKS_CAP; omega),
      parse_tokens_no_gt _ _ hmem, List.take_of_length_le (by unfold MAXV; omega), htok]
    simp
  have hr1 : ¬ (((ds.length + 1 : Nat) : Int) < 0) := by omega
  have hr2 : ¬ (((ds.length + 1 : Nat) : Int) = 0) := by omega
  unfold execute_segment
  simp only [hp, report_errors, hr1, hr2, if_false]
  have e1 : ¬ PATH = EXIT := by decide
  have e2 : ¬ PATH = CD := by decide
  simp [e1, e2, set_path]

/-- A helper form of the frame property of the search list. -/
theorem execute_segment_pathv_frame (env : Env) (st : Shell) (seg : Str)
    (h : (parse_simple_command seg MAXV).ret ≤ 0
      ∨ (parse_simple_command seg MAXV).argv.head? ≠ some PATH
      ∨ (parse_simple_command seg MAXV).redir ≠ none) :
    (execute_segment env st seg).st.pathv = st.pathv := by
  unfold execute_segment
  simp only [report_errors_eq]
  generalize parse_simple_command seg MAXV = p at h
  repeat' split
  all_goals first
    | rfl
    | (simp only [print_error, set_path]; done)
    | skip
  all_goals
    exfalso
    rename_i hlt hz _ t ts heq _ _ hpath hredir
    rcases h with h | h | h
    · omega
    · rw [heq, hpath] at h; simp at h
    · exact hredir h

theorem run_segments_pathv_frame (env : Env) (st : Shell) (segs : List Str)
    (h : ∀ m ∈ segs, (parse_simple_command m MAXV).ret ≤ 0
      ∨ (parse_simple_command m MAXV).argv.head? ≠ some PATH
      ∨ (parse_simple_command m MAXV).redir ≠ none) :
    (run_segments env st segs).pathv = st.pathv := by
  induction segs generalizing st with
  | nil => rfl
  | cons m rest ih =>
    simp only [run_segments, List.foldl_cons]
    have := ih (execute_segment env st m).st (fun x hx => h x (by simp [hx]))
    simp only [run_segments] at this
    rw [this]
    exact execute_segment_pathv_frame env st m (h m (by simp))

/-- An external command meets the empty search list: the uniform error, once, and
nothing else. -/
theorem execute_segment_empty_list (env : Env) (st : Shell) (seg : Str) (name : Str)
    (rest : List Str) (htok : tokens seg = name :: rest)
    (hb : name ≠ EXIT ∧ name ≠ CD ∧ name ≠ PATH) (hpv : st.pathv = []) :
    (execute_segment env st seg).spawned_pid = 0
      ∧ (execute_segment env st seg).want_exit = false
      ∧ (execute_segment env st seg).st
          = { st with trace := st.trace ++ [Event.error] } := by
  rcases parse_of_head seg name rest htok with he | ⟨args, hargv, herr, hret⟩
  · rw [execute_segment_syntax_error env st seg he]
    exact ⟨rfl, rfl, rfl⟩
  · obtain ⟨h1, h2, h3⟩ := hb
    have hr1 : ¬ ((parse_simple_command seg MAXV).ret < 0) := by rw [hret]; omega
    have hr2 : ¬ ((parse_simple_command seg MAXV).ret = 0) := by rw [hret]; omega
    unfold execute_segment
    simp [herr, report_errors, hr1, hr2, hargv, h1, h2, h3, hpv, print_error]

/-- C11: after a `path` segment with no arguments, and after any further segments
that are not a `path` command without redirection, every segment whose command
name is not a built-in makes `execute_segment` report the uniform error once and
spawn no process, whatever is executable (the name may even contain `/`). -/
theorem C11_empty_list_blocks_externals (env env2 : Env) (st : Shell) (seg_p : Str)
    (mids : List Str) (seg : Str) (name : Str) (rest : List Str)
    (hp : tokens seg_p = [PATH])
    (hmid : ∀ m ∈ mids, (parse_simple_command m MAXV).ret ≤ 0
      ∨ (parse_simple_command m MAXV).argv.head? ≠ some PATH
      ∨ (parse_simple_command m MAXV).redir ≠ none)
    (htok : tokens seg = name :: rest) (hb : name ≠ EXIT ∧ name ≠ CD ∧ name ≠ PATH) :
    (run_segments env (execute_segment env st seg_p).st mids).pathv = []
      ∧ (execute_segment env2 (run_segments env (execute_segment env st seg_p).st mids)
          seg).spawned_pid = 0
      ∧ (execute_segment env2 (run_segments env (execute_segment env st seg_p).st mids)
          seg).st.forks = (run_segments env (execute_segment env st seg_p).st mids).forks
      ∧ (execute_segment env2 (run_segments env (execute_segment env st seg_p).st mids)
          seg).st.trace
          = (run_segments env (execute_segment env st seg_p).st mids).trace ++ [Event.error] := by
  have hpv : (run_segments env (execute_segment env st seg_p).st mids).pathv = [] := by
    rw [run_segments_pathv_frame env _ mids hmid,
      execute_segment_path env st seg_p [] hp (by simp) (by rw [hp]; simp)]
  obtain ⟨h1, _, h3⟩ := execute_segment_empty_list env2 _ seg name rest htok hb hpv
  refine ⟨hpv, h1, ?_, ?_⟩
  · rw [h3]
  · rw [h3]

/-- Witness for C11: `path`, then `cd /tmp`, then `ls -l` where every path is
executable and `ls` resolved before. -/
theorem C11_witness :
    (execute_segment demo_env demo_shell seg_ls).spawned_pid = 101
      ∧ (execute_segment demo_env
          (run_segments demo_env (execute_segment demo_env demo_shell seg_path_empty).st [seg_cd])
          seg_ls).spawned_pid = 0 :=
  ⟨by decide,
   (C11_empty_list_blocks_externals demo_env demo_env demo_shell seg_path_empty [seg_cd] seg_ls
      "ls".toList ["-l".toList] (by decide)
      (fun m hm => by
        have e : m = seg_cd := by simpa using hm
        subst e
        exact Or.inr (Or.inl (by decide)))
      (by decide) (by decide)).2.1⟩

/-- With a first token `name`, the parse is the syntax error, or a success with a
redirection, or a success without one whose arguments are the (truncated) tokens
after the name. -/
theorem parse_of_head_detail (seg : Str) (name : Str) (rest : List Str)
    (htok : tokens seg = name :: rest) :
    parse_simple_command seg MAXV = ParseResult.syntax_error
      ∨ ∃ args, (parse_simple_command seg MAXV).argv = name :: args
          ∧ (parse_simple_command seg MAXV).errors = 0
          ∧ (parse_simple_command seg MAXV).ret = ((args.length + 1 : Nat) : Int)
          ∧ ((parse_simple_command seg MAXV).redir ≠ none
              ∨ ((parse_simple_command seg MAXV).redir = none
                  ∧ args = (rest.take 254).take 126 ∧ GT ∉ rest.take 254 ∧ name ≠ GT)) := by
  unfold parse_simple_command
  rw [examined_tokens_eq, htok, take_cap_cons]
  by_cases hmem : GT ∈ name :: rest.take 254
  · obtain ⟨pre, post, e, hpre⟩ := exists_first_gt _ hmem
    rw [e, parse_tokens_gt pre post MAXV hpre]
    by_cases hc : GT ∈ post ∨ pre = [] ∨ post.length ≠ 1
    · left; rw [if_pos hc]
    · right
      rw [if_neg hc]
      simp only [not_or, ne_eq, not_not] at hc
      cases pre with
      | nil => exact absurd rfl hc.2.1
      | cons a as =>
        simp only [List.cons_append, List.cons.injEq] at e
        rw [← e.1, take_maxv_cons]
        refine ⟨as.take 126, rfl, rfl, by simp, Or.inl ?_⟩
        cases post with
        | nil => simp at hc
        | cons f r => simp
  · right
    rw [parse_tokens_no_gt _ MAXV hmem, take_maxv_cons]
    simp only [List.mem_cons, not_or] at hmem
    exact ⟨(rest.take 254).take 126, rfl, rfl, by simp,
      Or.inr ⟨rfl, rfl, hmem.2, fun e => hmem.1 e.symm⟩⟩

theorem parse_of_blank (seg : Str) (htok : tokens seg = []) :
    parse_simple_command seg MAXV = { ret := 0, argv := [], redir := none, errors := 0 } := by
  unfold parse_simple_command
  rw [examined_tokens_eq, htok]
  rfl

theorem execute_segment_blank (env : Env) (st : Shell) (seg : Str) (htok : tokens seg = []) :
    execute_segment env st seg = { ret := 0, spawned_pid := 0, want_exit := false, st := st } := by
  unfold execute_segment
  simp [parse_of_blank seg htok, report_errors]

theorem take_take_eq_nil (rest : List Str) (h : (rest.take 254).take 126 = []) : rest = [] := by
  cases rest with
  | nil => rfl
  | cons a b => simp at h

/-- The effect of `execute_segment` on a command named `exit`. -/
theorem execute_segment_exit (env : Env) (st : Shell) (seg : Str) (args : List Str)
    (hargv : (parse_simple_command seg MAXV).argv = EXIT :: args)
    (herr : (parse_simple_command seg MAXV).errors = 0)
    (hret : (parse_simple_command seg MAXV).ret = ((args.length + 1 : Nat) : Int)) :
    execute_segment env st seg
      = if (parse_simple_command seg MAXV).redir ≠ none ∨ args ≠ [] then
          { ret := 0, spawned_pid := 0, want_exit := false,
            st := { st with trace := st.trace ++ [Event.error] } }
        else { ret := 0, spawned_pid := 0, want_exit := true, st := st } := by
  have hr1 : ¬ ((parse_simple_command seg MAXV).ret < 0) := by rw [hret]; omega
  have hr2 : ¬ ((parse_simple_command seg MAXV).ret = 0) := by rw [hret]; omega
  have h1 : ((parse_simple_command seg MAXV).ret ≠ 1) ↔ args ≠ [] := by
    rw [hret]
    cases args with
    | nil => simp
    | cons a b => simp; omega
  unfold execute_segment
  simp only [herr, report_errors, hr1, hr2, if_false, hargv, if_true, h1, print_error]

/-- The single word `exit` requests exit and reports nothing. -/
theorem execute_segment_exit_bare (env : Env) (st : Shell) (seg : Str)
    (htok : tokens seg = [EXIT]) :
    execute_segment env st seg
      = { ret := 0, spawned_pid := 0, want_exit := true, st := st } := by
  rcases parse_of_head_detail seg EXIT [] htok with he | ⟨args, hargv, herr, hret, hr⟩
  · exfalso
    unfold parse_simple_command at he
    rw [examined_tokens_eq, htok, take_cap_cons,
      parse_tokens_no_gt _ MAXV (by decide)] at he
    simp [ParseResult.syntax_error] at he
  · rcases hr with hr | ⟨hnone, hargs, _, _⟩
    · exfalso
      unfold parse_simple_command at hr
      rw [examined_tokens_eq, htok, take_cap_cons,
        parse_tokens_no_gt _ MAXV (by decide)] at hr
      exact hr rfl
    · rw [execute_segment_exit env st seg args hargv herr hret]
      have : args = [] := by rw [hargs]; rfl
      simp [hnone, this]

/-- The word `exit` followed by anything is refused with one diagnostic. -/
theorem execute_segment_exit_more (env : Env) (st : Shell) (seg : Str) (rest : List Str)
    (hne : rest ≠ []) (htok : tokens seg = EXIT :: rest) :
    (execute_segment env st seg).want_exit = false
      ∧ (execute_segment env st seg).spawned_pid = 0
      ∧ (execute_segment env st seg).st
          = { st with trace := st.trace ++ [Event.error] } := by
  rcases parse_of_head_detail seg EXIT rest htok with he | ⟨args, hargv, herr, hret, hr⟩
  · rw [execute_segment_syntax_error env st seg he]
    exact ⟨rfl, rfl, rfl⟩
  · have hcond : (parse_simple_command seg MAXV).redir ≠ none ∨ args ≠ [] := by
      rcases hr with hr | ⟨_, hargs, _, _⟩
      · exact Or.inl hr
      · right
        intro e
        rw [e] at hargs
        exact hne (take_take_eq_nil rest hargs.symm)
    rw [execute_segment_exit env st seg args hargv herr hret, if_pos hcond]
    exact ⟨rfl, rfl, rfl⟩

/-- Exit is requested exactly by the single word `exit`. -/
theorem execute_segment_want_exit_iff (env : Env) (st : Shell) (seg : Str) :
    (execute_segment env st seg).want_exit = true ↔ tokens seg = [EXIT] := by
  refine ⟨fun hw => ?_, fun htok => by rw [execute_segment_exit_bare env st seg htok]⟩
  cases htok : tokens seg with
  | nil =>
    rw [execute_segment_blank env st seg htok] at hw
    simp at hw
  | cons name rest =>
    rcases parse_of_head_detail seg name rest htok with he | ⟨args, hargv, herr, hret, hr⟩
    · rw [execute_segment_syntax_error env st seg he] at hw
      simp at hw
    · by_cases hname : name = EXIT
      · subst hname
        by_cases hrest : rest = []
        · rw [hrest]
        · rw [(execute_segment_exit_more env st seg rest hrest htok).1] at hw
          simp at hw
      · exfalso
        have hr1 : ¬ ((parse_simple_command seg MAXV).ret < 0) := by rw [hret]; omega
        have hr2 : ¬ ((parse_simple_command seg MAXV).ret = 0) := by rw [hret]; omega
        unfold execute_segment at hw
        simp only [herr, report_errors, hr1, hr2, if_false, hargv, hname] at hw
        revert hw
        repeat' split
        all_goals simp

/-- C12: `execute_segment` requests exit exactly when the tokens of the segment are
the single word `exit`, and then reports nothing; `exit` followed by any further
token (an argument or a redirection) reports the uniform error once, requests no
exit and spawns nothing. -/
theorem C12_exit_only_when_bare (env : Env) (st : Shell) (seg : Str) :
    ((execute_segment env st seg).want_exit = true ↔ tokens seg = [EXIT])
      ∧ (tokens seg = [EXIT] →
          execute_segment env st seg
            = { ret := 0, spawned_pid := 0, want_exit := true, st := st })
      ∧ (∀ rest, rest ≠ [] → tokens seg = EXIT :: rest →
          (execute_segment env st seg).want_exit = false
            ∧ (execute_segment env st seg).spawned_pid = 0
            ∧ (execute_segment env st seg).st
                = { st with trace := st.trace ++ [Event.error] }) := by
  refine ⟨execute_segment_want_exit_iff env st seg, ?_, ?_⟩
  · intro htok
    exact execute_segment_exit_bare env st seg htok
  · intro rest hne htok
    exact execute_segment_exit_more env st seg rest hne htok

/-- The effect of `execute_segment` on a command named `cd`. -/
theorem execute_segment_cd (env : Env) (st : Shell) (seg : Str) (args : List Str)
    (hargv : (parse_simple_command seg MAXV).argv = CD :: args)
    (herr : (parse_simple_command seg MAXV).errors = 0)
    (hret : (parse_simple_command seg MAXV).ret = ((args.length + 1 : Nat) : Int)) :
    execute_segment env st seg
      = if (parse_simple_command seg MAXV).redir ≠ none ∨ args.length ≠ 1 then
          { ret := 0, spawned_pid := 0, want_exit := false,
            st := { st with trace := st.trace ++ [Event.error] } }
        else
          match args.head? with
          | none => { ret := 0, spawned_pid := 0, want_exit := false, st := st }
          | some dir =>
            match env.chdir st.cwd dir with
            | some cwd =>
              { ret := 0, spawned_pid := 0, want_exit := false,
                st := { st with cwd := cwd, trace := st.trace ++ [Event.chdir dir true] } }
            | none =>
              { ret := 0, spawned_pid := 0, want_exit := false,
                st := { st with trace := st.trace ++ [Event.chdir dir false, Event.error] } } := by
  have hr1 : ¬ ((parse_simple_command seg MAXV).ret < 0) := by rw [hret]; omega
  have hr2 : ¬ ((parse_simple_command seg MAXV).ret = 0) := by rw [hret]; omega
  have h2 : ((parse_simple_command seg MAXV).ret ≠ 2) ↔ args.length ≠ 1 := by
    rw [hret]; constructor <;> intro h <;> omega
  have e1 : ¬ CD = EXIT := by decide
  unfold execute_segment
  simp only [herr, report_errors, hr1, hr2, if_false, hargv, e1, if_true, h2, print_error]
  split
  · rfl
  · cases args with
    | nil => rfl
    | cons dir tl =>
      simp only [List.head?_cons]
      cases env.chdir st.cwd dir <;> simp

/-- C13: for a segment whose tokens are `cd` followed by `rest`: when `rest` is a
single argument (not `>`), `chdir` is attempted on it, and a failed attempt reports
the uniform error once, leaves the working directory unchanged and requests no
exit; in every other case (no argument, two or more, a redirection) no `chdir` is
attempted, the uniform error is reported once and the working directory is
unchanged. -/
theorem C13_cd_argument_check (env : Env) (st : Shell) (seg : Str) (rest : List Str)
    (htok : tokens seg = CD :: rest) :
    (∀ d, rest = [d] → d ≠ GT →
        execute_segment env st seg
          = match env.chdir st.cwd d with
            | some cwd =>
              { ret := 0, spawned_pid := 0, want_exit := false,
                st := { pathv := st.pathv, cwd := cwd, forks := st.forks,
                        trace := st.trace ++ [Event.chdir d true] } }
            | none =>
              { ret := 0, spawned_pid := 0, want_exit := false,
                st := { pathv := st.pathv, cwd := st.cwd, forks := st.forks,
                        trace := st.trace ++ [Event.chdir d false, Event.error] } })
      ∧ ((¬ ∃ d, rest = [d] ∧ d ≠ GT) →
          (execute_segment env st seg).spawned_pid = 0
            ∧ (execute_segment env st seg).want_exit = false
            ∧ (execute_segment env st seg).st
                = { pathv := st.pathv, cwd := st.cwd, forks := st.forks,
                    trace := st.trace ++ [Event.error] }) := by
  rcases parse_of_head_detail seg CD rest htok with he | ⟨args, hargv, herr, hret, hr⟩
  · constructor
    · intro d hd hgt
      exfalso
      subst hd
      unfold parse_simple_command at he
      have hmem : GT ∉ [CD, d] := by
        simp only [List.mem_cons, List.mem_singleton, not_or, List.not_mem_nil, or_false]
        exact ⟨by decide, fun e => hgt e.symm⟩
      rw [examined_tokens_eq, htok, List.take_of_length_le (by unfold TOKS_CAP; simp),
        parse_tokens_no_gt _ MAXV hmem] at he
      simp [ParseResult.syntax_error] at he
    · intro _
      rw [execute_segment_syntax_error env st seg he]
      exact ⟨rfl, rfl, rfl⟩
  · rw [execute_segment_cd env st seg args hargv herr hret]
    constructor
    · intro d hd hgt
      subst hd
      have hmem : GT ∉ [CD, d] := by
        simp only [List.mem_cons, List.mem_singleton, not_or, List.not_mem_nil, or_false]
        exact ⟨by decide, fun e => hgt e.symm⟩
      have hp : parse_simple_command seg MAXV
          = { ret := 2, argv := [CD, d], redir := none, errors := 0 } := by
        unfold parse_simple_command
        rw [examined_tokens_eq, htok, List.take_of_length_le (by unfold TOKS_CAP; simp),
          parse_tokens_no_gt _ MAXV hmem, List.take_of_length_le (by unfold MAXV; simp)]
        rfl
      have ha : args = [d] := by
        rw [hp] at hargv
        simpa using hargv.symm
      subst ha
      have hredir : (parse_simple_command seg MAXV).redir = none := by rw [hp]
      simp only [hredir, ne_eq, not_true_eq_false, List.length_singleton, or_self, if_false,
        List.head?_cons]
    · intro hnot
      have hcond : (parse_simple_command seg MAXV).redir ≠ none ∨ args.length ≠ 1 := by
        rcases hr with hr | ⟨_, hargs, hgt, _⟩
        · exact Or.inl hr
        · right
          intro hl
          apply hnot
          cases rest with
          | nil => rw [hargs] at hl; simp at hl
          | cons d tl =>
            cases tl with
            | nil =>
              refine ⟨d, rfl, fun e => hgt ?_⟩
              rw [e]; simp
            | cons d2 tl2 => rw [hargs] at hl; simp at hl
      rw [if_pos hcond]
      exact ⟨rfl, rfl, rfl⟩

/-- Witness for C13 at the segment `cd a b`, which has two arguments. -/
theorem C13_witness :
    tokens seg_cd_two = CD :: ["a".toList, "b".toList]
      ∧ (execute_segment demo_env demo_shell seg_cd_two).st
          = { pathv := demo_shell.pathv, cwd := demo_shell.cwd, forks := demo_shell.forks,
              trace := demo_shell.trace ++ [Event.error] } :=
  ⟨by decide,
   ((C13_cd_argument_check demo_env demo_shell seg_cd_two ["a".toList, "b".toList]
      (by decide)).2 (by rintro ⟨d, hd, _⟩; simp at hd)).2.2⟩

/-- C17: a segment whose command name is `exit`, `cd` or `path`, whether used
validly or not, never creates a process: `execute_segment` returns the child handle
0, calls `fork` no time, and records no spawn. -/
theorem C17_builtins_never_fork (env : Env) (st : Shell) (seg : Str) (name : Str)
    (rest : List Str) (htok : tokens seg = name :: rest)
    (hb : name = EXIT ∨ name = CD ∨ name = PATH) :
    (execute_segment env st seg).spawned_pid = 0
      ∧ (execute_segment env st seg).st.forks = st.forks
      ∧ spawned_of (execute_segment env st seg).st.trace = spawned_of st.trace
      ∧ Event.fork_failed ∉ (execute_segment env st seg).st.trace.drop st.trace.length := by
  rcases parse_of_head seg name rest htok with he | ⟨args, hargv, herr, hret⟩
  · rw [execute_segment_syntax_error env st seg he]
    simp [spawned_of]
  · rcases hb with hb | hb | hb
    · subst hb
      rw [execute_segment_exit env st seg args hargv herr hret]
      split <;> simp [spawned_of]
    · subst hb
      rw [execute_segment_cd env st seg args hargv herr hret]
      repeat' split
      all_goals simp [spawned_of]
    · subst hb
      have hr1 : ¬ ((parse_simple_command seg MAXV).ret < 0) := by rw [hret]; omega
      have hr2 : ¬ ((parse_simple_command seg MAXV).ret = 0) := by rw [hret]; omega
      have e1 : ¬ PATH = EXIT := by decide
      have e2 : ¬ PATH = CD := by decide
      unfold execute_segment
      simp only [herr, report_errors, hr1, hr2, if_false, hargv, e1, e2, if_true]
      split <;> simp [spawned_of, print_error, set_path]

/-- Witness for C17 at the segment `exit extra`. -/
theorem C17_witness :
    tokens seg_exit_extra = EXIT :: ["extra".toList]
      ∧ (execute_segment demo_env demo_shell seg_exit_extra).spawned_pid = 0
      ∧ (execute_segment demo_env demo_shell seg_exit_extra).st.forks = demo_shell.forks :=
  ⟨by decide,
   (C17_builtins_never_fork demo_env demo_shell seg_exit_extra EXIT ["extra".toList]
      (by decide) (Or.inl rfl)).1,
   (C17_builtins_never_fork demo_env demo_shell seg_exit_extra EXIT ["extra".toList]
      (by decide) (Or.inl rfl)).2.1⟩

/-! ## Line executor lemmas -/

theorem waited_of_append (a b : List Event) :
    waited_of (a ++ b) = waited_of a ++ waited_of b := by
  simp [waited_of]

theorem waited_of_replicate_error (n : Nat) :
    waited_of (List.replicate n Event.error) = [] := by
  induction n with
  | zero => rfl
  | succ n ih => simp [List.replicate_succ, waited_of] at ih ⊢

theorem spawned_of_replicate_error (n : Nat) :
    spawned_of (List.replicate n Event.error) = [] := by
  induction n with
  | zero => rfl
  | succ n ih => simp [List.replicate_succ, spawned_of] at ih ⊢

theorem waited_of_map_wait (pids : List Nat) : waited_of (pids.map Event.wait) = pids := by
  induction pids with
  | nil => rfl
  | cons p ps ih => simp [waited_of] at ih ⊢; exact ih

theorem spawned_of_map_wait (pids : List Nat) : spawned_of (pids.map Event.wait) = [] := by
  induction pids with
  | nil => rfl
  | cons p ps ih => simp [spawned_of] at ih ⊢

theorem segments_of_map_wait (pids : List Nat) : segments_of (pids.map Event.wait) = [] := by
  induction pids with
  | nil => rfl
  | cons p ps ih => simp [segments_of] at ih ⊢

/-- The call `execute_segment` only appends to the trace. -/
theorem execute_segment_extends_trace (env : Env) (st : Shell) (seg : Str) :
    st.trace <+: (execute_segment env st seg).st.trace := by
  unfold execute_segment
  simp only [report_errors_eq]
  repeat' split
  all_goals simp [print_error, set_path, List.append_assoc]

theorem waited_of_execute_segment (env : Env) (st : Shell) (seg : Str) :
    waited_of (execute_segment env st seg).st.trace = waited_of st.trace := by
  unfold execute_segment
  simp only [report_errors_eq]
  repeat' split
  all_goals
    simp [print_error, set_path, waited_of_append, waited_of_replicate_error]
  all_goals
    simp [waited_of]

theorem spawned_of_result (env : Env) (st : Shell) (seg : Str) (r : SegResult)
    (hr : execute_segment env st seg = r) :
    spawned_of r.st.trace
      = spawned_of st.trace ++ [r.spawned_pid].filter (fun p => decide (0 < p)) := by
  unfold execute_segment at hr
  simp only [report_errors_eq] at hr
  revert hr
  repeat' split
  all_goals
    intro hr
    subst hr
    simp [print_error, set_path, spawned_of_append, spawned_of_replicate_error, spawned_of]

/-- A spawn is recorded exactly when a child handle is returned. -/
theorem spawned_of_execute_segment (env : Env) (st : Shell) (seg : Str) :
    spawned_of (execute_segment env st seg).st.trace
      = spawned_of st.trace
        ++ (if 0 < (execute_segment env st seg).spawned_pid
            then [(execute_segment env st seg).spawned_pid] else []) := by
  rw [spawned_of_result env st seg _ rfl]
  by_cases h : 0 < (execute_segment env st seg).spawned_pid
  · simp [h]
  · simp [h]

theorem take_append_take (n : Nat) (l m : List Nat) :
    ((l.take n) ++ m).take n = (l ++ m).take n := by
  rw [List.take_append_eq_append_take, List.take_append_eq_append_take, List.take_take,
    Nat.min_self, List.length_take]
  congr 2
  omega

theorem line_step_facts (env : Env) (ls : LineState) (seg : Str)
    (hp : ls.pids.length ≤ PIDS_CAP) :
    ∃ x : List Nat,
      spawned_of (line_step env ls seg).st.trace = spawned_of ls.st.trace ++ x
        ∧ (line_step env ls seg).pids = (ls.pids ++ x).take PIDS_CAP
        ∧ waited_of (line_step env ls seg).st.trace = waited_of ls.st.trace
        ∧ ls.st.trace <+: (line_step env ls seg).st.trace := by
  refine ⟨if 0 < (execute_segment env
      { ls.st with trace := ls.st.trace ++ [Event.segment seg] } seg).spawned_pid
      then [(execute_segment env
        { ls.st with trace := ls.st.trace ++ [Event.segment seg] } seg).spawned_pid] else [],
    ?_, ?_, ?_, ?_⟩
  · simp only [line_step]
    rw [spawned_of_execute_segment]
    simp [spawned_of_append, spawned_of]
  · simp only [line_step]
    by_cases h0 : 0 < (execute_segment env
        { ls.st with trace := ls.st.trace ++ [Event.segment seg] } seg).spawned_pid
    · by_cases h1 : ls.pids.length < PIDS_CAP
      · rw [if_pos ⟨h0, h1⟩, if_pos h0, List.take_of_length_le (by simp; omega)]
      · rw [if_neg (fun h => h1 h.2), if_pos h0, List.take_append_of_le_length (by omega),
          List.take_of_length_le hp]
    · rw [if_neg (fun h => h0 h.1), if_neg h0, List.append_nil, List.take_of_length_le hp]
  · simp only [line_step]
    rw [waited_of_execute_segment]
    simp [waited_of_append, waited_of]
  · simp only [line_step]
    exact List.IsPrefix.trans (List.prefix_append _ _)
      (execute_segment_extends_trace env
        { ls.st with trace := ls.st.trace ++ [Event.segment seg] } seg)

/-- Over the whole segment loop: nothing is waited on, and `pids` holds the first
`PIDS_CAP` of the children spawned. -/
theorem line_fold_facts (env : Env) (segs : List Str) (ls : LineState)
    (hp : ls.pids.length ≤ PIDS_CAP) :
    ∃ new : List Nat,
      spawned_of (segs.foldl (line_step env) ls).st.trace = spawned_of ls.st.trace ++ new
        ∧ (segs.foldl (line_step env) ls).pids = (ls.pids ++ new).take PIDS_CAP
        ∧ waited_of (segs.foldl (line_step env) ls).st.trace = waited_of ls.st.trace
        ∧ ls.st.trace <+: (segs.foldl (line_step env) ls).st.trace := by
  induction segs generalizing ls with
  | nil =>
    exact ⟨[], by simp, by simp [List.take_of_length_le hp], rfl, List.prefix_refl _⟩
  | cons s rest ih =>
    obtain ⟨x, hx1, hx2, hx3, hx4⟩ := line_step_facts env ls s hp
    have hp2 : (line_step env ls s).pids.length ≤ PIDS_CAP := by
      rw [hx2, List.length_take]; omega
    obtain ⟨new, hn1, hn2, hn3, hn4⟩ := ih (line_step env ls s) hp2
    refine ⟨x ++ new, ?_, ?_, ?_, ?_⟩
    · rw [List.foldl_cons, hn1, hx1, List.append_assoc]
    · rw [List.foldl_cons, hn2, hx2, take_append_take, List.append_assoc]
    · rw [List.foldl_cons, hn3, hx3]
    · rw [List.foldl_cons]
      exact List.IsPrefix.trans hx4 hn4

theorem line_loop_spec (env : Env) (norm : Str) (ls : LineState) :
    line_loop env (strsep_pieces is_amp norm) ls
      = (spec_segments norm).foldl (line_step env) ls := by
  rw [line_loop_eq_foldl, strsep_pieces_eq_splitOn]
  rfl

theorem not_wait_of_waited_nil (evs : List Event) (h : waited_of evs = []) :
    ∀ e ∈ evs, ∀ p, e ≠ Event.wait p := by
  intro e he p hp
  subst hp
  have : p ∈ waited_of evs := by
    simp only [waited_of, List.mem_filterMap]
    exact ⟨Event.wait p, he, rfl⟩
  rw [h] at this
  simp at this

/-- What a line leaves in the trace: the events of dispatching all its segments,
then one wait for each of the first `PIDS_CAP` children spawned. -/
theorem line_summary (env : Env) (st : Shell) (norm : Str) :
    ∃ evs : List Event,
      ((spec_segments norm).foldl (line_step env)
          { st := st, pids := [], want_exit := false }).st.trace = st.trace ++ evs
        ∧ (execute_normalized_line env st norm).1.trace
            = st.trace ++ evs ++ ((spawned_of evs).take PIDS_CAP).map Event.wait
        ∧ waited_of evs = []
        ∧ segments_of evs = spec_segments norm := by
  obtain ⟨new, h1, h2, h3, ⟨evs, h4⟩⟩ := line_fold_facts env (spec_segments norm)
    { st := st, pids := [], want_exit := false } (by simp)
  simp only [List.nil_append] at h1 h2 h3 h4
  have hnew : new = spawned_of evs := by
    rw [← h4, spawned_of_append] at h1
    exact (List.append_cancel_left h1).symm
  have hw : waited_of evs = [] := by
    rw [← h4, waited_of_append] at h3
    have := List.append_cancel_left (h3.trans (List.append_nil _).symm)
    exact this
  have hs : segments_of evs = spec_segments norm := by
    have := segments_of_foldl env (spec_segments norm)
      { st := st, pids := [], want_exit := false }
    rw [← h4, segments_of_append] at this
    exact List.append_cancel_left this
  refine ⟨evs, h4.symm, ?_, hw, hs⟩
  simp only [execute_normalized_line, line_loop_spec, wait_all]
  rw [h2, ← h4, hnew]

theorem line_fold_want_exit (env : Env) (segs : List Str) (ls : LineState) :
    (segs.foldl (line_step env) ls).want_exit = true
      ↔ ls.want_exit = true ∨ ∃ s ∈ segs, tokens s = [EXIT] := by
  induction segs generalizing ls with
  | nil => simp
  | cons s rest ih =>
    rw [List.foldl_cons, ih]
    have hstep : (line_step env ls s).want_exit = true
        ↔ ls.want_exit = true ∨ tokens s = [EXIT] := by
      simp only [line_step]
      rw [← execute_segment_want_exit_iff env
        { ls.st with trace := ls.st.trace ++ [Event.segment s] } s]
      by_cases hw : (execute_segment env
          { ls.st with trace := ls.st.trace ++ [Event.segment s] } s).want_exit = true
      · simp [hw]
      · simp [hw]
    rw [hstep]
    simp only [List.mem_cons, exists_eq_or_imp]
    tauto

theorem line_exit_iff (env : Env) (st : Shell) (norm : Str) :
    (execute_normalized_line env st norm).2 = true
      ↔ ∃ s ∈ spec_segments norm, tokens s = [EXIT] := by
  simp only [execute_normalized_line, line_loop_spec]
  rw [line_fold_want_exit]
  simp

/-- C15: the events a line adds to the trace are the events of dispatching all its
segments, in order, none of which is a wait, followed by the waits (one for each
of the first 256 children spawned); so among the events of a line every spawn
stands before every wait. -/
theorem C15_all_dispatched_before_waiting (env : Env) (st : Shell) (norm : Str) :
    ∃ evs pids : List _,
      (execute_normalized_line env st norm).1.trace = st.trace ++ (evs ++ pids.map Event.wait)
        ∧ st.trace ++ evs
            = ((spec_segments norm).foldl (line_step env)
                { st := st, pids := [], want_exit := false }).st.trace
        ∧ segments_of evs = spec_segments norm
        ∧ (∀ e ∈ evs, ∀ p, e ≠ Event.wait p)
        ∧ pids = (spawned_of evs).take PIDS_CAP
        ∧ ∀ (i j : Nat) (p q : Nat) (res : Str) (argv : List Str) (redir : Option Str),
            (evs ++ pids.map Event.wait)[i]? = some (Event.wait p) →
            (evs ++ pids.map Event.wait)[j]? = some (Event.spawn q res argv redir) →
            j < i := by
  obtain ⟨evs, h1, h2, h3, h4⟩ := line_summary env st norm
  have hnw := not_wait_of_waited_nil evs h3
  refine ⟨evs, (spawned_of evs).take PIDS_CAP, ?_, h1.symm, h4, hnw, rfl, ?_⟩
  · rw [h2, List.append_assoc]
  · intro i j p q res argv redir hi hj
    have hi2 : evs.length ≤ i := by
      by_contra hlt
      rw [List.getElem?_append_left (by omega)] at hi
      exact hnw _ (List.getElem?_mem hi) p rfl
    have hj2 : j < evs.length := by
      by_contra hge
      rw [List.getElem?_append_right (by omega)] at hj
      have hm := List.getElem?_mem hj
      rw [List.mem_map] at hm
      obtain ⟨a, _, ha⟩ := hm
      exact absurd ha (by simp)
    omega

/-! ## A line of 257 commands -/

set_option maxRecDepth 100000 in
theorem spec_segments_257 :
    spec_segments line_257_commands = List.replicate 257 ['a'] := by
  decide

set_option maxRecDepth 100000 in
theorem spec_segments_exit_257 :
    spec_segments line_exit_257_commands = EXIT :: List.replicate 257 ['a'] := by
  decide

theorem demo_execute_a (st : Shell) (hpv : st.pathv = demo_shell.pathv) :
    execute_segment demo_env st ['a']
      = { ret := 0, spawned_pid := 100 + st.forks + 1, want_exit := false,
          st := { pathv := st.pathv, cwd := st.cwd, forks := st.forks + 1,
                  trace := st.trace ++ [Event.spawn (100 + st.forks + 1) "/bin/a".toList
                    [['a']] none] } } := by
  have hp : parse_simple_command ['a'] MAXV
      = { ret := 1, argv := [['a']], redir := none, errors := 0 } := by decide
  have e1 : ¬ (['a'] : Str) = EXIT := by decide
  have e2 : ¬ (['a'] : Str) = CD := by decide
  have e3 : ¬ (['a'] : Str) = PATH := by decide
  have hpv2 : st.pathv = ["/bin".toList] := hpv
  have hres : resolve_command_path (demo_env.access_x st.cwd) st.pathv ['a']
      = some "/bin/a".toList := by
    rw [hpv2]
    simp [resolve_command_path, resolve_loop, demo_env, join_dir_cmd]
  have hne : ¬ st.pathv = [] := by rw [hpv2]; simp
  have hfork : demo_env.fork st.forks = some (100 + st.forks) := rfl
  unfold execute_segment
  simp only [hp, report_errors]
  simp only [e1, e2, e3, hne, hres, hfork, if_false]
  simp

theorem demo_fold_a (n : Nat) (ls : LineState) (hpv : ls.st.pathv = demo_shell.pathv) :
    spawned_of ((List.replicate n ['a']).foldl (line_step demo_env) ls).st.trace
        = spawned_of ls.st.trace ++ (List.range n).map (fun k => 101 + ls.st.forks + k)
      ∧ ((List.replicate n ['a']).foldl (line_step demo_env) ls).want_exit = ls.want_exit := by
  induction n generalizing ls with
  | zero => simp
  | succ n ih =>
    have hstep : line_step demo_env ls ['a']
        = { st := { pathv := ls.st.pathv, cwd := ls.st.cwd, forks := ls.st.forks + 1,
                    trace := ls.st.trace ++ [Event.segment ['a'],
                      Event.spawn (100 + ls.st.forks + 1) "/bin/a".toList [['a']] none] },
            pids := if ls.pids.length < PIDS_CAP then ls.pids ++ [100 + ls.st.forks + 1]
                    else ls.pids,
            want_exit := ls.want_exit } := by
      simp only [line_step]
      rw [demo_execute_a { ls.st with trace := ls.st.trace ++ [Event.segment ['a']] } hpv]
      simp
    rw [List.replicate_succ, List.foldl_cons]
    obtain ⟨h1, h2⟩ := ih (line_step demo_env ls ['a']) (by rw [hstep]; exact hpv)
    rw [h1, h2, hstep]
    refine ⟨?_, rfl⟩
    simp only [spawned_of_append, List.range_succ_eq_map, List.map_cons, List.map_map]
    simp [spawned_of, Function.comp_def]
    refine ⟨by omega, ?_⟩
    intro a _
    omega

/-- The children a line spawns, and those it waits on: the first `PIDS_CAP` of them. -/
theorem line_spawn_wait (env : Env) (st : Shell) (norm : Str) :
    ∃ new : List Nat,
      spawned_of ((spec_segments norm).foldl (line_step env)
          { st := st, pids := [], want_exit := false }).st.trace = spawned_of st.trace ++ new
        ∧ spawned_of (execute_normalized_line env st norm).1.trace = spawned_of st.trace ++ new
        ∧ waited_of (execute_normalized_line env st norm).1.trace
            = waited_of st.trace ++ new.take PIDS_CAP := by
  obtain ⟨evs, h1, h2, h3, _⟩ := line_summary env st norm
  refine ⟨spawned_of evs, ?_, ?_, ?_⟩
  · rw [h1, spawned_of_append]
  · rw [h2, spawned_of_append, spawned_of_append, spawned_of_map_wait, List.append_nil]
  · rw [h2, waited_of_append, waited_of_append, waited_of_map_wait, h3, List.append_nil]

set_option maxRecDepth 100000 in
theorem range_map_take :
    ((List.range 257).map (fun k => 101 + 0 + k)).take PIDS_CAP
      = (List.range 256).map (fun k => 101 + k) := by
  decide

theorem range_map_257 :
    (List.range 257).map (fun k => 101 + 0 + k) = (List.range 257).map (fun k => 101 + k) := by
  apply List.map_congr_left
  intro a _
  omega

/-- C14 (evaluation at the failing input): in general a line waits on the first
256 children it spawns and on no other; on the line of 257 external commands
`a&a&...&a`, with every path executable and `fork` returning 101, 102, ..., the
children 101..357 are spawned and only 101..356 are waited on, so the child 357 is
still unwaited when `execute_normalized_line` returns. -/
theorem C14_child_beyond_cap_not_waited :
    (∀ (env : Env) (st : Shell) (norm : Str), ∃ new : List Nat,
        spawned_of (execute_normalized_line env st norm).1.trace = spawned_of st.trace ++ new
          ∧ waited_of (execute_normalized_line env st norm).1.trace
              = waited_of st.trace ++ new.take PIDS_CAP)
      ∧ spawned_of (execute_normalized_line demo_env demo_shell line_257_commands).1.trace
          = (List.range 257).map (fun k => 101 + k)
      ∧ waited_of (execute_normalized_line demo_env demo_shell line_257_commands).1.trace
          = (List.range 256).map (fun k => 101 + k) := by
  refine ⟨fun env st norm => ?_, ?_⟩
  · obtain ⟨new, _, h2, h3⟩ := line_spawn_wait env st norm
    exact ⟨new, h2, h3⟩
  · obtain ⟨new, h1, h2, h3⟩ := line_spawn_wait demo_env demo_shell line_257_commands
    rw [spec_segments_257] at h1
    have hf := (demo_fold_a 257 { st := demo_shell, pids := [], want_exit := false } rfl).1
    rw [h1] at hf
    have hnew : new = (List.range 257).map (fun k => 101 + 0 + k) := by
      have : demo_shell.forks = 0 := rfl
      simpa [demo_shell, spawned_of] using hf
    rw [h2, h3, hnew, range_map_take, range_map_257]
    exact ⟨rfl, rfl⟩

/-- C16 (evaluation at the failing input): in general `execute_normalized_line`
returns the exit signal exactly when some segment of the line is the single word
`exit`, and it has then executed every segment of the line; but on the line
`exit&a&a&...&a` with 257 external commands it returns the signal while the child
357 has been spawned and not waited on. -/
theorem C16_exit_signal_with_unwaited_child :
    (∀ (env : Env) (st : Shell) (norm : Str),
        ((execute_normalized_line env st norm).2 = true
            ↔ ∃ s ∈ spec_segments norm, tokens s = [EXIT])
          ∧ segments_of (execute_normalized_line env st norm).1.trace
              = segments_of st.trace ++ spec_segments norm)
      ∧ (execute_normalized_line demo_env demo_shell line_exit_257_commands).2 = true
      ∧ segments_of (execute_normalized_line demo_env demo_shell line_exit_257_commands).1.trace
          = EXIT :: List.replicate 257 ['a']
      ∧ spawned_of (execute_normalized_line demo_env demo_shell line_exit_257_commands).1.trace
          = (List.range 257).map (fun k => 101 + k)
      ∧ waited_of (execute_normalized_line demo_env demo_shell line_exit_257_commands).1.trace
          = (List.range 256).map (fun k => 101 + k) := by
  have hgen : ∀ (env : Env) (st : Shell) (norm : Str),
      segments_of (execute_normalized_line env st norm).1.trace
        = segments_of st.trace ++ spec_segments norm := by
    intro env st norm
    obtain ⟨evs, _, h2, _, h4⟩ := line_summary env st norm
    rw [h2, segments_of_append, segments_of_append, segments_of_map_wait, h4, List.append_nil]
  refine ⟨fun env st norm => ⟨line_exit_iff env st norm, hgen env st norm⟩, ?_, ?_, ?_⟩
  · rw [line_exit_iff, spec_segments_exit_257]
    exact ⟨EXIT, List.mem_cons_self _ _, by decide⟩
  · rw [hgen, spec_segments_exit_257]
    rfl
  · obtain ⟨new, h1, h2, h3⟩ := line_spawn_wait demo_env demo_shell line_exit_257_commands
    rw [spec_segments_exit_257, List.foldl_cons] at h1
    have hstep : line_step demo_env { st := demo_shell, pids := [], want_exit := false } EXIT
        = { st := { demo_shell with trace := [Event.segment EXIT] }, pids := [],
            want_exit := true } := by
      decide
    rw [hstep] at h1
    have hf := (demo_fold_a 257
      { st := { demo_shell with trace := [Event.segment EXIT] }, pids := [],
        want_exit := true } rfl).1
    rw [h1] at hf
    have hnew : new = (List.range 257).map (fun k => 101 + 0 + k) := by
      simpa [demo_shell, spawned_of] using hf
    rw [h2, h3, hnew, range_map_take, range_map_257]
    exact ⟨rfl, rfl⟩

/-! ## Glued redirection -/

theorem strsep_pieces_word (d : Char → Bool) (w : Str) (h : ∀ c ∈ w, d c = false) :
    strsep_pieces d w = [w] := by
  induction w with
  | nil => rfl
  | cons a w ih =>
    have ha : d a = false := h a (by simp)
    simp [strsep_pieces, ha, ih (fun c hc => h c (by simp [hc]))]

theorem strsep_pieces_word_sep (d : Char → Bool) (w : Str) (x : Char) (rest : Str)
    (h : ∀ c ∈ w, d c = false) (hx : d x = true) :
    strsep_pieces d (w ++ x :: rest) = w :: strsep_pieces d rest := by
  induction w with
  | nil => simp [strsep_pieces, hx]
  | cons a w ih =>
    have ha : d a = false := h a (by simp)
    simp [strsep_pieces, ha, ih (fun c hc => h c (by simp [hc]))]

theorem space_needed_of_not_ws (a : Char) (h : is_ws a = false) :
    space_needed (some a) = true := by
  simp only [is_ws, Bool.or_eq_false_iff, beq_eq_false_iff_ne, ne_eq] at h
  simp [space_needed, bne, h.1.1.1, h.1.1.2]

theorem normalize_marked_glued (prev : Option Char) (c f : Str)
    (hc : ∀ ch ∈ c, is_ws ch = false ∧ is_op ch = false)
    (hf : ∀ ch ∈ f, is_ws ch = false ∧ is_op ch = false) (hfne : f ≠ [])
    (hprev : c ≠ [] ∨ space_needed prev = true) :
    (normalize_marked prev (c ++ '>' :: f)).map Prod.fst = c ++ ' ' :: '>' :: ' ' :: f := by
  induction c generalizing prev with
  | nil =>
    have hp : space_needed prev = true := by
      rcases hprev with h | h
      · exact absurd rfl h
      · exact h
    have hafter : needs_space_after f = true := by
      cases f with
      | nil => exact absurd rfl hfne
      | cons a r =>
        rw [needs_space_after_cons, (hf a (by simp)).1]
        rfl
    have hop : is_op '>' = true := by decide
    simp only [List.nil_append, normalize_marked, hop, if_true, hp, hafter,
      List.singleton_append, List.map_cons]
    rw [normalize_marked_no_op (some ' ') f (fun ch h => (hf ch h).2)]
  | cons a c ih =>
    have ha := hc a (by simp)
    have e : normalize_marked prev (a :: c ++ '>' :: f)
        = (a, true) :: normalize_marked (some a) (c ++ '>' :: f) := by
      simp [normalize_marked, ha.2]
    rw [e, List.map_cons, ih (some a) (fun ch h => hc ch (by simp [h]))
      (Or.inr (space_needed_of_not_ws a ha.1))]
    simp

/-- C18: for non-empty words `c` and `f` without whitespace, `>` or `&`,
`normalize_ops` turns `c>f` into `c > f`, which `parse_simple_command` accepts with
the argument vector `[c]` and the redirection target `f`. -/
theorem C18_glued_redirection (c f : Str) (hcne : c ≠ []) (hfne : f ≠ [])
    (hc : ∀ ch ∈ c, is_ws ch = false ∧ is_op ch = false)
    (hf : ∀ ch ∈ f, is_ws ch = false ∧ is_op ch = false) :
    normalize_ops (c ++ ['>'] ++ f) = c ++ [' ', '>', ' '] ++ f
      ∧ parse_simple_command (normalize_ops (c ++ ['>'] ++ f)) MAXV
          = { ret := 1, argv := [c], redir := some f, errors := 0 } := by
  have hnorm : normalize_ops (c ++ ['>'] ++ f) = c ++ [' ', '>', ' '] ++ f := by
    rw [normalize_ops_eq]
    have := normalize_marked_glued none c f hc hf hfne (Or.inl hcne)
    simpa using this
  refine ⟨hnorm, ?_⟩
  rw [hnorm]
  have hgt_ws : is_ws '>' = false := by decide
  have hsp : is_ws ' ' = true := by decide
  have hpieces : strsep_pieces is_ws (c ++ [' ', '>', ' '] ++ f) = [c, GT, f] := by
    have e : c ++ [' ', '>', ' '] ++ f = c ++ ' ' :: (['>'] ++ ' ' :: f) := by simp
    rw [e, strsep_pieces_word_sep is_ws c ' ' _ (fun ch h => (hc ch h).1) hsp,
      strsep_pieces_word_sep is_ws ['>'] ' ' f (by simp [hgt_ws]) hsp,
      strsep_pieces_word is_ws f (fun ch h => (hf ch h).1)]
    rfl
  have htok : tokens (c ++ [' ', '>', ' '] ++ f) = [c, GT, f] := by
    unfold tokens
    rw [hpieces]
    cases c with
    | nil => exact absurd rfl hcne
    | cons a c =>
      cases f with
      | nil => exact absurd rfl hfne
      | cons b f => rfl
  have hcgt : GT ∉ [c] := by
    simp only [List.mem_singleton]
    intro e
    have := (hc '>' (by rw [← e]; simp [GT])).2
    exact absurd this (by decide)
  have hfgt : GT ∉ [f] := by
    simp only [List.mem_singleton]
    intro e
    have := (hf '>' (by rw [← e]; simp [GT])).2
    exact absurd this (by decide)
  unfold parse_simple_command
  rw [examined_tokens_eq, htok, List.take_of_length_le (by unfold TOKS_CAP; simp),
    show [c, GT, f] = [c] ++ GT :: [f] from rfl, parse_tokens_gt [c] [f] MAXV hcgt]
  have hcond : ¬ (GT ∈ [f] ∨ [c] = [] ∨ [f].length ≠ 1) := by
    simp only [not_or]
    exact ⟨hfgt, by simp, by simp⟩
  rw [if_neg hcond]
  rfl

/-- Witness for C18 at `ls>out`. -/
theorem C18_witness :
    normalize_ops ("ls".toList ++ ['>'] ++ "out".toList)
        = "ls".toList ++ [' ', '>', ' '] ++ "out".toList
      ∧ parse_simple_command (normalize_ops ("ls".toList ++ ['>'] ++ "out".toList)) MAXV
          = { ret := 1, argv := ["ls".toList], redir := some "out".toList, errors := 0 } :=
  C18_glued_redirection "ls".toList "out".toList (by decide) (by decide) (by decide) (by decide)

/-! ## Error reporting -/

theorem errors_of_append_error (t : List Event) :
    errors_of (t ++ [Event.error]) = errors_of t + 1 := by
  simp [errors_of, List.count_append]

theorem parse_shape (seg : Str) :
    parse_simple_command seg MAXV = ParseResult.syntax_error
      ∨ ((parse_simple_command seg MAXV).ret = (parse_simple_command seg MAXV).argv.length
          ∧ (parse_simple_command seg MAXV).errors = 0) := by
  unfold parse_simple_command
  exact parse_tokens_shape _ _

theorem tokens_nil_of_argv_nil (seg : Str)
    (hne : parse_simple_command seg MAXV ≠ ParseResult.syntax_error)
    (hargv : (parse_simple_command seg MAXV).argv = []) : tokens seg = [] := by
  cases htok : tokens seg with
  | nil => rfl
  | cons name rest =>
    rcases parse_of_head seg name rest htok with he | ⟨args, ha, _, _⟩
    · exact absurd he hne
    · rw [hargv] at ha
      simp at ha

/-- The effect of `execute_segment` on an external command. -/
theorem execute_segment_external (env : Env) (st : Shell) (seg : Str) (name : Str)
    (args : List Str) (hargv : (parse_simple_command seg MAXV).argv = name :: args)
    (herr : (parse_simple_command seg MAXV).errors = 0)
    (hret : (parse_simple_command seg MAXV).ret = ((args.length + 1 : Nat) : Int))
    (h1 : name ≠ EXIT) (h2 : name ≠ CD) (h3 : name ≠ PATH) :
    execute_segment env st seg
      = if st.pathv = [] then
          { ret := 0, spawned_pid := 0, want_exit := false,
            st := { st with trace := st.trace ++ [Event.error] } }
        else
          match resolve_command_path (env.access_x st.cwd) st.pathv name with
          | none =>
            { ret := 0, spawned_pid := 0, want_exit := false,
              st := { st with trace := st.trace ++ [Event.error] } }
          | some resolved =>
            match env.fork st.forks with
            | none =>
              { ret := 0, spawned_pid := 0, want_exit := false,
                st := { st with forks := st.forks + 1,
                                trace := st.trace ++ [Event.fork_failed, Event.error] } }
            | some pid =>
              { ret := 0, spawned_pid := pid + 1, want_exit := false,
                st := { st with forks := st.forks + 1,
                                trace := st.trace ++ [Event.spawn (pid + 1) resolved
                                  (name :: args) (parse_simple_command seg MAXV).redir] } } := by
  have hr1 : ¬ ((parse_simple_command seg MAXV).ret < 0) := by rw [hret]; omega
  have hr2 : ¬ ((parse_simple_command seg MAXV).ret = 0) := by rw [hret]; omega
  unfold execute_segment
  simp only [herr, report_errors, hr1, hr2, if_false, hargv, h1, h2, h3, print_error]
  split
  · rfl
  · split
    · rfl
    · split <;> simp

/-- The effect of `execute_segment` on a command named `path`. -/
theorem execute_segment_path_cmd (env : Env) (st : Shell) (seg : Str) (args : List Str)
    (hargv : (parse_simple_command seg MAXV).argv = PATH :: args)
    (herr : (parse_simple_command seg MAXV).errors = 0)
    (hret : (parse_simple_command seg MAXV).ret = ((args.length + 1 : Nat) : Int)) :
    execute_segment env st seg
      = if (parse_simple_command seg MAXV).redir ≠ none then
          { ret := 0, spawned_pid := 0, want_exit := false,
            st := { st with trace := st.trace ++ [Event.error] } }
        else { ret := 0, spawned_pid := 0, want_exit := false, st := { st with pathv := args } } := by
  have hr1 : ¬ ((parse_simple_command seg MAXV).ret < 0) := by rw [hret]; omega
  have hr2 : ¬ ((parse_simple_command seg MAXV).ret = 0) := by rw [hret]; omega
  have e1 : ¬ PATH = EXIT := by decide
  have e2 : ¬ PATH = CD := by decide
  unfold execute_segment
  simp only [herr, report_errors, hr1, hr2, if_false, hargv, e1, e2, if_true, print_error,
    set_path]

/-- One diagnostic is added on the paths that end in `print_error`, none on the
others; and a segment on one of the others is blank, or requested exit, or changed
the working directory, or replaced the search list, or spawned a process. -/
theorem errors_of_execute_segment (env : Env) (st : Shell) (seg : Str) :
    errors_of (execute_segment env st seg).st.trace
        = errors_of st.trace + (if reports_error env st seg = true then 1 else 0)
      ∧ (reports_error env st seg = false →
          tokens seg = []
            ∨ (execute_segment env st seg).want_exit = true
            ∨ (∃ d c, env.chdir st.cwd d = some c
                ∧ (execute_segment env st seg).st.cwd = c
                ∧ (execute_segment env st seg).st.trace = st.trace ++ [Event.chdir d true])
            ∨ (∃ ds, (parse_simple_command seg MAXV).argv = PATH :: ds
                ∧ (parse_simple_command seg MAXV).redir = none
                ∧ (execute_segment env st seg).st.pathv = ds)
            ∨ 0 < (execute_segment env st seg).spawned_pid) := by
  rcases parse_shape seg with he | ⟨hlen, herr⟩
  · have hf : reports_error env st seg = true := by
      unfold reports_error
      rw [he]
      rfl
    rw [execute_segment_syntax_error env st seg he, hf]
    exact ⟨errors_of_append_error _, fun h => absurd h (by simp)⟩
  · have hne : parse_simple_command seg MAXV ≠ ParseResult.syntax_error := by
      intro e
      rw [e] at herr
      simp [ParseResult.syntax_error] at herr
    have hr1 : ¬ ((parse_simple_command seg MAXV).ret < 0) := by rw [hlen]; omega
    cases hargv : (parse_simple_command seg MAXV).argv with
    | nil =>
      have htok := tokens_nil_of_argv_nil seg hne hargv
      have hf : reports_error env st seg = false := by
        unfold reports_error
        simp [hr1, hargv]
      rw [execute_segment_blank env st seg htok, hf]
      exact ⟨by simp, fun _ => Or.inl htok⟩
    | cons name args =>
      have hret : (parse_simple_command seg MAXV).ret = ((args.length + 1 : Nat) : Int) := by
        rw [hlen, hargv]; simp
      by_cases h1 : name = EXIT
      · subst h1
        rw [execute_segment_exit env st seg args hargv herr hret]
        have hf : reports_error env st seg
            = ((parse_simple_command seg MAXV).redir.isSome || !args.isEmpty) := by
          unfold reports_error
          simp [hr1, hargv]
        rw [hf]
        cases hredir : (parse_simple_command seg MAXV).redir <;> cases args <;>
          simp [errors_of_append_error]
      · by_cases h2 : name = CD
        · subst h2
          rw [execute_segment_cd env st seg args hargv herr hret]
          have e1 : ¬ CD = EXIT := by decide
          have hf : reports_error env st seg
              = ((parse_simple_command seg MAXV).redir.isSome || cd_fails env st args) := by
            unfold reports_error
            rw [if_neg hr1]
            simp only [hargv, e1, if_false, if_true]
          rw [hf]
          cases hredir : (parse_simple_command seg MAXV).redir with
          | some f => simp [errors_of_append_error]
          | none =>
            cases args with
            | nil => simp [errors_of_append_error, cd_fails]
            | cons d tl =>
              cases tl with
              | cons d2 tl2 => simp [errors_of_append_error, cd_fails]
              | nil =>
                cases hch : env.chdir st.cwd d with
                | none =>
                  simp [hch, errors_of, List.count_append, cd_fails]
                | some c =>
                  refine ⟨by simp [hch, errors_of, List.count_append, cd_fails], fun _ => ?_⟩
                  refine Or.inr (Or.inr (Or.inl ⟨d, c, hch, ?_, ?_⟩))
                  · simp [hch]
                  · simp [hch]
        · by_cases h3 : name = PATH
          · subst h3
            rw [execute_segment_path_cmd env st seg args hargv herr hret]
            have e1 : ¬ PATH = EXIT := by decide
            have e2 : ¬ PATH = CD := by decide
            have hf : reports_error env st seg
                = (parse_simple_command seg MAXV).redir.isSome := by
              unfold reports_error
              simp [hr1, hargv, e1, e2]
            rw [hf]
            cases hredir : (parse_simple_command seg MAXV).redir <;>
              simp [errors_of_append_error]
          · rw [execute_segment_external env st seg name args hargv herr hret h1 h2 h3]
            have hf : reports_error env st seg
                = (st.pathv.isEmpty
                    || (resolve_command_path (env.access_x st.cwd) st.pathv name).isNone
                    || (env.fork st.forks).isNone) := by
              unfold reports_error
              simp [hr1, hargv, h1, h2, h3]
            rw [hf]
            by_cases hpv : st.pathv = []
            · simp [hpv, errors_of_append_error]
            · have hpe : st.pathv.isEmpty = false := by
                cases hh : st.pathv with
                | nil => exact absurd hh hpv
                | cons a b => rfl
              rw [if_neg hpv, hpe]
              cases hres : resolve_command_path (env.access_x st.cwd) st.pathv name with
              | none => simp [errors_of_append_error]
              | some resolved =>
                cases hfork : env.fork st.forks with
                | none => simp [errors_of, List.count_append]
                | some pid => simp [errors_of, List.count_append]

/-! ## Truncation -/

theorem execute_segment_congr (env : Env) (st : Shell) (seg seg2 : Str)
    (h : parse_simple_command seg MAXV = parse_simple_command seg2 MAXV) :
    execute_segment env st seg = execute_segment env st seg2 := by
  unfold execute_segment
  rw [h]

/-- C20: `parse_simple_command` looks at the first 255 tokens only, so two segments
that agree on them parse alike; without a `>` among them it succeeds, with no
diagnostic, with the first `min k (maxv - 1)` of the `k` examined tokens; with a
first `>` after the tokens `pre`, a success returns the first
`min pre.length (maxv - 1)` of `pre`; and with `maxv = 128` a segment of more than
127 tokens, none of the examined ones `>`, is accepted with `argc = 127` and is
executed exactly like a segment made of its first 127 tokens. -/
theorem C20_silent_truncation (seg : Str) (maxv : Nat) :
    parse_simple_command seg maxv = parse_tokens ((tokens seg).take 255) maxv
      ∧ (∀ seg2, (tokens seg2).take 255 = (tokens seg).take 255 →
          parse_simple_command seg2 maxv = parse_simple_command seg maxv)
      ∧ (GT ∉ (tokens seg).take 255 →
          (parse_simple_command seg maxv).argv = ((tokens seg).take 255).take (maxv - 1)
            ∧ (parse_simple_command seg maxv).argv.length
                = min ((tokens seg).take 255).length (maxv - 1)
            ∧ (parse_simple_command seg maxv).ret = (parse_simple_command seg maxv).argv.length
            ∧ (parse_simple_command seg maxv).redir = none
            ∧ (parse_simple_command seg maxv).errors = 0)
      ∧ (∀ pre post, (tokens seg).take 255 = pre ++ GT :: post → GT ∉ pre →
          0 ≤ (parse_simple_command seg maxv).ret →
          (parse_simple_command seg maxv).argv = pre.take (maxv - 1)
            ∧ (parse_simple_command seg maxv).argv.length = min pre.length (maxv - 1)
            ∧ (parse_simple_command seg maxv).ret = (parse_simple_command seg maxv).argv.length
            ∧ (parse_simple_command seg maxv).errors = 0)
      ∧ (GT ∉ (tokens seg).take 255 → 127 < (tokens seg).length →
          (parse_simple_command seg MAXV).ret = 127
            ∧ (parse_simple_command seg MAXV).errors = 0
            ∧ (parse_simple_command seg MAXV).argv = (tokens seg).take 127
            ∧ ∀ (env : Env) (st : Shell) (seg2 : Str), tokens seg2 = (tokens seg).take 127 →
                execute_segment env st seg = execute_segment env st seg2) := by
  have hp : ∀ (s : Str) (m : Nat),
      parse_simple_command s m = parse_tokens ((tokens s).take 255) m := by
    intro s m
    unfold parse_simple_command
    rw [examined_tokens_eq]
    rfl
  refine ⟨hp seg maxv, ?_, ?_, ?_, ?_⟩
  · intro seg2 h
    rw [hp seg2, hp seg, h]
  · intro hgt
    rw [hp, parse_tokens_no_gt _ maxv hgt]
    refine ⟨rfl, ?_, rfl, rfl, rfl⟩
    simp only [List.length_take]
    omega
  · intro pre post e hpre hret
    rw [hp, e, parse_tokens_gt pre post maxv hpre] at hret ⊢
    by_cases hc : GT ∈ post ∨ pre = [] ∨ post.length ≠ 1
    · rw [if_pos hc] at hret
      exact absurd hret (by decide)
    · rw [if_neg hc]
      refine ⟨rfl, ?_, rfl, rfl⟩
      simp only [List.length_take]
      omega
  · intro hgt hlen
    have htake : ((tokens seg).take 255).take (MAXV - 1) = (tokens seg).take 127 := by
      rw [List.take_take]
      rfl
    have hparse : parse_simple_command seg MAXV
        = { ret := 127, argv := (tokens seg).take 127, redir := none, errors := 0 } := by
      rw [hp, parse_tokens_no_gt _ MAXV hgt, htake]
      have : ((tokens seg).take 127).length = 127 := by
        rw [List.length_take]; omega
      rw [this]
      rfl
    refine ⟨by rw [hparse], by rw [hparse], by rw [hparse], ?_⟩
    intro env st seg2 h2
    apply execute_segment_congr
    have hsub : ∀ t ∈ (tokens seg).take 127, t ∈ (tokens seg).take 255 := by
      intro t ht
      have e : (tokens seg).take 127 = ((tokens seg).take 255).take 127 := by
        rw [List.take_take]; rfl
      rw [e] at ht
      exact List.mem_of_mem_take ht
    have hgt2 : GT ∉ (tokens seg2).take 255 := by
      rw [h2]
      intro hm
      exact hgt (hsub GT (List.mem_of_mem_take hm))
    have hlen2 : ((tokens seg).take 127).length = 127 := by
      rw [List.length_take]; omega
    have e1 : List.take 255 (List.take 127 (tokens seg)) = List.take 127 (tokens seg) :=
      List.take_of_length_le (by rw [hlen2]; decide)
    have e2 : List.take (MAXV - 1) (List.take 127 (tokens seg)) = List.take 127 (tokens seg) :=
      List.take_of_length_le (by rw [hlen2]; decide)
    have hparse2 : parse_simple_command seg2 MAXV
        = { ret := 127, argv := (tokens seg).take 127, redir := none, errors := 0 } := by
      rw [hp seg2 MAXV, parse_tokens_no_gt _ MAXV hgt2, h2, e1, e2, hlen2]
      rfl
    rw [hparse, hparse2]

set_option maxRecDepth 100000 in
/-- A segment of 200 words is accepted with `argc = 127` and no diagnostic. -/
theorem truncation_example :
    (tokens seg_200_words).length = 200
      ∧ (parse_simple_command seg_200_words MAXV).ret = 127
      ∧ (parse_simple_command seg_200_words MAXV).errors = 0 := by
  decide

/-! ## The search list is changed by `path` only -/

/-- C10 (amended): `execute_segment` leaves the search list as it was for every
segment whose first token is not `path` (a blank segment, `exit`, `cd`, an external
command, found or not) or that has a `>` among its first 255 tokens (a syntax
error, or `path` with a redirection the parser sees). -/
theorem C10_search_list_frame (env : Env) (st : Shell) (seg : Str)
    (h : (tokens seg).head? ≠ some PATH ∨ GT ∈ (tokens seg).take TOKS_CAP) :
    (execute_segment env st seg).st.pathv = st.pathv := by
  apply execute_segment_pathv_frame
  cases htok : tokens seg with
  | nil =>
    left
    rw [parse_of_blank seg htok]
  | cons name rest =>
    rcases parse_of_head_detail seg name rest htok with he | ⟨args, hargv, _, _, hr⟩
    · left
      rw [he]
      decide
    · right
      rw [htok] at h
      rcases h with h | h
      · left
        rw [hargv]
        simpa using h
      · right
        rcases hr with hr | ⟨_, _, hgt, hname⟩
        · exact hr
        · exfalso
          rw [take_cap_cons] at h
          rcases List.mem_cons.1 h with e | e
          · exact hname e.symm
          · exact hgt e

/-- Witness for C10 at the segment `cd /tmp`, whose first token is not `path`. -/
theorem C10_witness :
    (tokens seg_cd).head? ≠ some PATH
      ∧ (execute_segment demo_env demo_shell seg_cd).st.pathv = demo_shell.pathv
      ∧ (execute_segment demo_env demo_shell seg_cd).st.cwd = "/tmp".toList :=
  ⟨by decide,
   C10_search_list_frame demo_env demo_shell seg_cd (Or.inl (by decide)),
   by decide⟩

set_option maxRecDepth 100000 in
/-- Counterexample to C10 as stated: the segment `path d ... d > f` (254 times `d`)
is a `path` command with a redirection, yet its `>` lies beyond the 255 tokens the
parser examines, so the search list is replaced by 126 times `d` and no diagnostic
is written. -/
theorem C10_counterexample :
    (tokens seg_path_hidden_redirect).head? = some PATH
      ∧ (tokens seg_path_hidden_redirect).length = 257
      ∧ (tokens seg_path_hidden_redirect)[255]? = some GT
      ∧ (execute_segment demo_env demo_shell seg_path_hidden_redirect).st.pathv
          = List.replicate 126 ['d']
      ∧ (execute_segment demo_env demo_shell seg_path_hidden_redirect).st.pathv
          ≠ demo_shell.pathv
      ∧ (execute_segment demo_env demo_shell seg_path_hidden_redirect).st.trace = [] := by
  decide

/-! ## Failures judged on the tokens -/

theorem redirection_malformed_iff (toks : List Str) :
    redirection_malformed toks = true
      ↔ (1 < toks.count GT ∨ toks.head? = some GT ∨ toks.getLast? = some GT
          ∨ ∃ i, toks[i]? = some GT ∧ i + 2 < toks.length) := by
  unfold redirection_malformed
  simp only [Bool.or_eq_true, decide_eq_true_eq, beq_iff_eq, List.any_eq_true, List.mem_range,
    Bool.and_eq_true]
  constructor
  · rintro (((h | h) | h) | ⟨i, _, hi, hl⟩)
    · exact Or.inl h
    · exact Or.inr (Or.inl h)
    · exact Or.inr (Or.inr (Or.inl h))
    · exact Or.inr (Or.inr (Or.inr ⟨i, hi, hl⟩))
  · rintro (h | h | h | ⟨i, hi, hl⟩)
    · exact Or.inl (Or.inl (Or.inl h))
    · exact Or.inl (Or.inl (Or.inr h))
    · exact Or.inl (Or.inr h)
    · exact Or.inr ⟨i, by omega, hi, hl⟩

/-- The condition tested after the scan is one of the four malformed shapes. -/
theorem malformed_of_cond (pre post : List Str) (hpre : GT ∉ pre)
    (h : GT ∈ post ∨ pre = [] ∨ post.length ≠ 1) :
    redirection_malformed (pre ++ GT :: post) = true := by
  rw [redirection_malformed_iff]
  rcases h with h | h | h
  · left
    rw [count_gt_split pre post hpre]
    have := List.count_pos_iff.2 h
    omega
  · right; left
    rw [h]; rfl
  · cases post with
    | nil =>
      right; right; left
      rw [show pre ++ [GT] = pre ++ [GT] from rfl, List.getLast?_append]
      simp
    | cons f r =>
      right; right; right
      refine ⟨pre.length, ?_, ?_⟩
      · rw [List.getElem?_append_right (le_refl _)]; simp
      · simp only [List.length_append, List.length_cons] at h ⊢
        omega

theorem command_words_no_gt (toks : List Str) (h : GT ∉ toks) : command_words toks = toks := by
  unfold command_words
  rw [List.takeWhile_eq_self_iff]
  intro t ht
  simp only [bne_iff_ne, ne_eq]
  intro e
  exact h (e ▸ ht)

theorem command_words_split (pre post : List Str) (hpre : GT ∉ pre) :
    command_words (pre ++ GT :: post) = pre := by
  unfold command_words
  induction pre with
  | nil => simp [List.takeWhile]
  | cons a as ih =>
    simp only [List.mem_cons, not_or] at hpre
    have ha : (a != GT) = true := by
      simp only [bne_iff_ne, ne_eq]
      exact fun e => hpre.1 e.symm
    rw [List.cons_append, List.takeWhile_cons, if_pos ha, ih hpre.2]

theorem parse_tokens_of_malformed (toks : List Str) (maxv : Nat)
    (h : redirection_malformed toks = true) :
    parse_tokens toks maxv = ParseResult.syntax_error :=
  parse_tokens_malformed toks maxv ((redirection_malformed_iff toks).1 h)

/-- Without a redirection syntax error the parse succeeds with the command words,
cut to `maxv - 1`, and with a target exactly when a `>` is present. -/
theorem parse_tokens_of_wellformed (toks : List Str) (maxv : Nat)
    (h : redirection_malformed toks = false) :
    ∃ r : Option Str,
      parse_tokens toks maxv
          = { ret := (((command_words toks).take (maxv - 1)).length : Nat),
              argv := (command_words toks).take (maxv - 1), redir := r, errors := 0 }
        ∧ r.isSome = toks.contains GT := by
  by_cases hmem : GT ∈ toks
  · obtain ⟨pre, post, e, hpre⟩ := exists_first_gt toks hmem
    subst e
    have hc : ¬ (GT ∈ post ∨ pre = [] ∨ post.length ≠ 1) := by
      intro hc
      rw [malformed_of_cond pre post hpre hc] at h
      exact absurd h (by simp)
    rw [parse_tokens_gt pre post maxv hpre, if_neg hc, command_words_split pre post hpre]
    refine ⟨post.head?, rfl, ?_⟩
    simp only [not_or, ne_eq, not_not] at hc
    have hcont : (pre ++ GT :: post).contains GT = true := by
      simp
    rw [hcont]
    cases post with
    | nil => simp at hc
    | cons f r => rfl
  · rw [parse_tokens_no_gt toks maxv hmem, command_words_no_gt toks hmem]
    refine ⟨none, rfl, ?_⟩
    have : toks.contains GT = false := by
      simpa using hmem
    rw [this]
    rfl

theorem cd_fails_take (env : Env) (st : Shell) (args : List Str) :
    cd_fails env st (args.take 126) = cd_fails env st args := by
  cases args with
  | nil => rfl
  | cons a tl =>
    cases tl with
    | nil => rfl
    | cons b tl2 => rfl

theorem isEmpty_take (args : List Str) : (args.take 126).isEmpty = args.isEmpty := by
  cases args <;> rfl

/-- The paths that end in `print_error` are taken exactly by the segments whose
first 255 tokens make a failure. -/
theorem reports_error_eq (env : Env) (st : Shell) (seg : Str) :
    reports_error env st seg = segment_fails env st ((tokens seg).take TOKS_CAP) := by
  unfold reports_error segment_fails parse_simple_command
  rw [examined_tokens_eq]
  generalize (tokens seg).take TOKS_CAP = toks
  cases hm : redirection_malformed toks with
  | true =>
    rw [parse_tokens_of_malformed toks MAXV hm]
    rfl
  | false =>
    obtain ⟨r, hp, hr⟩ := parse_tokens_of_wellformed toks MAXV hm
    rw [hp]
    have hneg : ¬ ((((command_words toks).take (MAXV - 1)).length : Nat) : Int) < 0 := by omega
    simp only [hneg, if_false, Bool.false_eq_true]
    cases hcw : command_words toks with
    | nil => rfl
    | cons name args =>
      rw [take_maxv_cons]
      simp only [hr, cd_fails_take, isEmpty_take]

theorem argv_of_no_redirection (seg : Str) (a : Str) (as : List Str)
    (hargv : (parse_simple_command seg MAXV).argv = a :: as)
    (hredir : (parse_simple_command seg MAXV).redir = none) :
    (parse_simple_command seg MAXV).argv = (tokens seg).take 127 := by
  unfold parse_simple_command at hargv hredir ⊢
  rw [examined_tokens_eq] at hargv hredir ⊢
  by_cases hmem : GT ∈ (tokens seg).take TOKS_CAP
  · exfalso
    obtain ⟨pre, post, e, hpre⟩ := exists_first_gt _ hmem
    rw [e, parse_tokens_gt pre post MAXV hpre] at hargv hredir
    by_cases hc : GT ∈ post ∨ pre = [] ∨ post.length ≠ 1
    · rw [if_pos hc] at hargv
      simp [ParseResult.syntax_error] at hargv
    · rw [if_neg hc] at hredir
      simp only [not_or, ne_eq, not_not] at hc
      cases post with
      | nil => simp at hc
      | cons f r => simp at hredir
  · rw [parse_tokens_no_gt _ MAXV hmem, List.take_take]
    rfl

/-- C19 (amended): `execute_segment` adds exactly one diagnostic to the trace when
the segment fails, judged on its first 255 tokens (redirection syntax error,
built-in misuse, failed directory change, empty search list, command not found,
failed process creation), and none otherwise; and a segment that does not fail is
blank, or requested exit, or changed the working directory, or replaced the search
list by its arguments, or spawned a process. -/
theorem C19_error_reported_exactly_once (env : Env) (st : Shell) (seg : Str) :
    errors_of (execute_segment env st seg).st.trace
        = errors_of st.trace
          + (if segment_fails env st ((tokens seg).take TOKS_CAP) = true then 1 else 0)
      ∧ (segment_fails env st ((tokens seg).take TOKS_CAP) = false →
          tokens seg = []
            ∨ (execute_segment env st seg).want_exit = true
            ∨ (∃ d c, env.chdir st.cwd d = some c
                ∧ (execute_segment env st seg).st.cwd = c
                ∧ (execute_segment env st seg).st.trace = st.trace ++ [Event.chdir d true])
            ∨ ((tokens seg).head? = some PATH
                ∧ (execute_segment env st seg).st.pathv = ((tokens seg).take 127).tail)
            ∨ 0 < (execute_segment env st seg).spawned_pid) := by
  obtain ⟨h1, h2⟩ := errors_of_execute_segment env st seg
  rw [reports_error_eq] at h1 h2
  refine ⟨h1, fun hf => ?_⟩
  rcases h2 hf with h | h | h | ⟨ds, hargv, hredir, hpv⟩ | h
  · exact Or.inl h
  · exact Or.inr (Or.inl h)
  · exact Or.inr (Or.inr (Or.inl h))
  · refine Or.inr (Or.inr (Or.inr (Or.inl ?_)))
    have ha := argv_of_no_redirection seg PATH ds hargv hredir
    rw [hargv] at ha
    constructor
    · cases htok : tokens seg with
      | nil => rw [htok] at ha; simp at ha
      | cons t ts =>
        rw [htok, show (127 : Nat) = 126 + 1 from rfl, List.take_succ_cons] at ha
        simp only [List.cons.injEq] at ha
        rw [ha.1]
        rfl
    · rw [hpv, ← ha]
      rfl
  · exact Or.inr (Or.inr (Or.inr (Or.inr h)))

set_option maxRecDepth 100000 in
/-- Counterexample to C19 as stated: the segment of 255 times `a` followed by `> >`
has two `>` tokens, a redirection syntax error and so a failure of the segment, yet
both lie beyond the 255 tokens the parser examines: no diagnostic is written and
the command is spawned. -/
theorem C19_counterexample :
    redirection_malformed (tokens seg_long_two_redirects) = true
      ∧ segment_fails demo_env demo_shell (tokens seg_long_two_redirects) = true
      ∧ errors_of (execute_segment demo_env demo_shell seg_long_two_redirects).st.trace
          = errors_of demo_shell.trace
      ∧ (execute_segment demo_env demo_shell seg_long_two_redirects).spawned_pid = 101 := by
  decide

end WitsShell
